import Mathlib

/-!
# Vyltrex launcher: install / verify / extract / locate pipeline

A shallow embedding of `main.js`.  The file system is a finite tree; the
functions of `main.js` become pure functions that take the tree and return the
new tree, the progress events they sent and their result or thrown error.

Modelling conventions
* A path is the list of the segments of an absolute path, from the root of the
  file system (of the drive, on Windows).  `path.join` splits its second
  argument at the separators of the platform and normalises: `pathJoin`.
* File names are compared exactly (a case-sensitive file system).  A path
  that ends with a separator exists only as a directory: `existsJoined`.
* What lies outside `main.js` is a field of `Env`: the platform, the `appData`
  directory, `String.prototype.toLowerCase` and `trim`, `JSON.parse` of a file
  not written by the launcher, the network, SHA-256, the zip reader, the clock.
* A file holds either raw bytes or the text `JSON.stringify(obj, null, 2)` of
  an installed-games object `obj`.
* A library call that throws leaves the tree as it was; a download stream that
  breaks leaves the bytes received so far.  Removing the root directory is
  taken to do nothing.
* The stack of `findExeRecursive` is a list with its top first.  A directory
  lists its entries in the order of the `Tree`; a new entry goes to the end.
  The own keys of an object are kept in insertion order.
-/

set_option autoImplicit false

namespace Vyltrex

/-! ## Strings and paths -/

abbrev Path := List String

/-- JavaScript `xs.join(sep)`. -/
def joinWith (sep : String) : List String → String
  | [] => ""
  | [x] => x
  | x :: y :: rest => x ++ sep ++ joinWith sep (y :: rest)

/-- Node `path.basename(p)`. -/
def basename (p : Path) : String := p.getLastD ""

/-- Node `path.dirname(p)`. -/
def dirname (p : Path) : Path := p.dropLast

/-- Path separators: `/`, and on Windows also the backslash. -/
def isSep (win32 : Bool) (c : Char) : Bool :=
  decide (c.toNat = 47) || (win32 && decide (c.toNat = 92))

/-- The pieces of a string between separators, empty pieces included. -/
def splitChars (sep : Char → Bool) : List Char → List (List Char)
  | [] => [[]]
  | c :: cs =>
    if sep c then [] :: splitChars sep cs
    else
      match splitChars sep cs with
      | [] => [[c]]
      | seg :: rest => (c :: seg) :: rest

/-- The segments of a path given as text. -/
def segments (win32 : Bool) (s : String) : List String :=
  (splitChars (isSep win32) s.data).map String.mk

/-- One step of `path.normalize`: empty segments and `.` are dropped, `..`
removes the segment before it (and stays at the root). -/
def normStep (acc : Path) (seg : String) : Path :=
  if seg = "" ∨ seg = "." then acc
  else if seg = ".." then acc.dropLast
  else acc ++ [seg]

/-- Node `path.normalize` on the segments of an absolute path. -/
def normalize (segs : List String) : Path := segs.foldl normStep []

/-- Node `path.join(base, s)` for an absolute `base`, without the trailing
separator that `path.join` keeps when `s` ends with one. -/
def pathJoin (win32 : Bool) (base : Path) (s : String) : Path :=
  normalize (base ++ segments win32 s)

/-- Whether `path.join(base, s)` ends with a separator: `s` ends with one. -/
def endsWithSep (win32 : Bool) (s : String) : Bool :=
  match s.data.getLast? with
  | some c => isSep win32 c
  | none => false

/-! ## Data model -/

/-- One value of the object stored in `installed.json`, with the four fields
that `installGame` writes. -/
structure InstallRecord where
  gameDir : Path
  baseDir : Path
  exe : String
  installedAt : String
deriving DecidableEq, Repr

/-- The object stored in `installed.json`: its own keys, in insertion order. -/
abbrev Installed := List (String × InstallRecord)

/-- Contents of a regular file: raw bytes, or the text
`JSON.stringify(installed, null, 2)`. -/
inductive Data where
  | raw (bytes : List Nat)
  | json (installed : Installed)
deriving DecidableEq, Repr

/-- A directory listing: the entries of one directory, in listing order.
The whole file system is the listing of the root directory. -/
inductive Tree where
  | nil
  | file (name : String) (data : Data) (rest : Tree)
  | special (name : String) (rest : Tree)
  | dir (name : String) (children : Tree) (rest : Tree)
deriving DecidableEq, Repr

/-- What a path resolves to. -/
inductive Entry where
  | file (data : Data)
  | special
  | dir (children : Tree)
deriving DecidableEq, Repr

namespace Tree

def cons (name : String) (e : Entry) (rest : Tree) : Tree :=
  match e with
  | .file d => .file name d rest
  | .special => .special name rest
  | .dir c => .dir name c rest

/-- First entry of the listing with the given name. -/
def find : Tree → String → Option Entry
  | .nil, _ => none
  | .file n d r, x => if n = x then some (.file d) else find r x
  | .special n r, x => if n = x then some .special else find r x
  | .dir n c r, x => if n = x then some (.dir c) else find r x

/-- Listing without the entries of the given name. -/
def remove : Tree → String → Tree
  | .nil, _ => .nil
  | .file n d r, x => if n = x then remove r x else .file n d (remove r x)
  | .special n r, x => if n = x then remove r x else .special n (remove r x)
  | .dir n c r, x => if n = x then remove r x else .dir n c (remove r x)

/-- Listing with the entry of the given name replaced, or added at the end. -/
def setEntry : Tree → String → Entry → Tree
  | .nil, x, e => cons x e .nil
  | .file n d r, x, e => if n = x then cons x e r else .file n d (setEntry r x e)
  | .special n r, x, e => if n = x then cons x e r else .special n (setEntry r x e)
  | .dir n c r, x, e => if n = x then cons x e r else .dir n c (setEntry r x e)

end Tree

/-- Resolve a path. -/
def stat (t : Tree) : Path → Option Entry
  | [] => some (.dir t)
  | n :: ns =>
    match t.find n with
    | some (.dir c) => stat c ns
    | some e => if ns = [] then some e else none
    | none => none

/-- Node `fs.existsSync(p)`. -/
def existsSync (t : Tree) (p : Path) : Bool := (stat t p).isSome

/-- Node `fs.existsSync(path.join(base, s))`: a path that ends with a separator
exists only as a directory. -/
def existsJoined (t : Tree) (win32 : Bool) (base : Path) (s : String) : Bool :=
  if endsWithSep win32 s then
    match stat t (pathJoin win32 base s) with
    | some (.dir _) => true
    | _ => false
  else existsSync t (pathJoin win32 base s)

/-- Node `fs.rmSync(p, { recursive: true, force: true })`. -/
def rmSync (t : Tree) : Path → Tree
  | [] => t
  | [n] => t.remove n
  | n :: m :: ns =>
    match t.find n with
    | some (.dir c) => t.setEntry n (.dir (rmSync c (m :: ns)))
    | _ => t

/-- Node `fs.mkdirSync(p, { recursive: true })`; `none` when it throws. -/
def mkdirSync : Tree → Path → Option Tree
  | t, [] => some t
  | t, n :: ns =>
    match t.find n with
    | some (.dir c) => (mkdirSync c ns).map fun c1 => t.setEntry n (.dir c1)
    | some _ => none
    | none => (mkdirSync .nil ns).map fun c1 => t.setEntry n (.dir c1)

/-- Node `fs.writeFileSync(p, data)`, also the effect of a finished write
stream; `none` when it throws. -/
def writeFileSync (t : Tree) : Path → Data → Option Tree
  | [], _ => none
  | [n], d =>
    match t.find n with
    | some (.dir _) => none
    | _ => some (t.setEntry n (.file d))
  | n :: m :: ns, d =>
    match t.find n with
    | some (.dir c) => (writeFileSync c (m :: ns) d).map fun c1 => t.setEntry n (.dir c1)
    | _ => none

/-- Node `fs.Dirent`. -/
structure Dirent where
  name : String
  isDirectory : Bool
  isFile : Bool
deriving DecidableEq, Repr

def dirents : Tree → List Dirent
  | .nil => []
  | .file n _ r => ⟨n, false, true⟩ :: dirents r
  | .special n r => ⟨n, false, false⟩ :: dirents r
  | .dir n _ r => ⟨n, true, false⟩ :: dirents r

/-- Node `fs.readdirSync(p, { withFileTypes: true })`; `none` when it throws. -/
def readdirSync (t : Tree) (p : Path) : Option (List Dirent) :=
  match stat t p with
  | some (.dir c) => some (dirents c)
  | _ => none

/-! ## External collaborators -/

/-- One entry of a zip archive, with the segments of its path inside the
archive as `adm-zip` sanitises them. -/
structure ZipEntry where
  entryName : Path
  isDirectory : Bool
  content : List Nat
deriving DecidableEq, Repr

/-- What the server does with a GET request.  A stream carries the
`content-length`, the chunks, whether it ends normally, and how many chunks
were handed to the `data` listener before a failure of the write stream, if
there is one, was delivered. -/
inductive Response where
  | rejected
  | stream (contentLength : Nat) (chunks : List (List Nat)) (finished : Bool)
      (seenBeforeWriteError : Nat)
deriving DecidableEq, Repr

/-- The world outside `main.js`.  `parseJson` is `JSON.parse` on the bytes of a
file the launcher did not write: `none` when it throws, `some none` for the
value `null`, `some (some obj)` for an object of install records. -/
structure Env where
  win32 : Bool
  appData : Path
  pathText : Path → String
  toLowerCase : String → String
  trim : String → String
  parseJson : List Nat → Option (Option Installed)
  request : String → Response
  sha256Hex : Data → String
  zipEntries : Data → Option (List ZipEntry)
  now : String

/-- One element of `games.json` (display fields left out). -/
structure Game where
  id : String
  download : String
  sha256 : Option String
  exe : String
deriving DecidableEq, Repr

/-- A thrown value: a failure of a library call, a `TypeError` of the
JavaScript runtime, or `new Error(message)`. -/
inductive Err where
  | fs
  | network
  | zip
  | typeError
  | error (message : String)
deriving DecidableEq, Repr

/-- The number `(num / den) * 100`. -/
structure Percent where
  num : Nat
  den : Nat
deriving DecidableEq, Repr

/-- Arguments of one call of `progressCb`. -/
abbrev Event := Percent × String

/-! ## `main.js` -/

def safeUserData (env : Env) : Path := env.appData ++ ["VyltrexLauncher"]
def INSTALL_ROOT (env : Env) : Path := safeUserData env ++ ["Games"]
def META_DIR (env : Env) : Path := safeUserData env ++ ["Meta"]
def INSTALLED_FILE (env : Env) : Path := META_DIR env ++ ["installed.json"]

def ensureDirs (env : Env) (t : Tree) : Option Tree :=
  (if existsSync t (INSTALL_ROOT env) then some t else mkdirSync t (INSTALL_ROOT env)).bind
    fun t1 =>
  (if existsSync t1 (META_DIR env) then some t1 else mkdirSync t1 (META_DIR env)).bind fun t2 =>
  if existsSync t2 (INSTALLED_FILE env) then some t2
  else writeFileSync t2 (INSTALLED_FILE env) (.json [])

/-- JavaScript `JSON.parse` on the contents of a file: `none` when it throws,
`some none` for `null`, `some (some obj)` for an object. -/
def jsonParse (env : Env) : Data → Option (Option Installed)
  | .json obj => some (some obj)
  | .raw bytes => env.parseJson bytes

/-- The `try { JSON.parse(readFileSync(INSTALLED_FILE)) } catch { {} }` of
`readInstalled`: `none` is the value `null`. -/
def parseInstalled (env : Env) (t : Tree) : Option Installed :=
  match stat t (INSTALLED_FILE env) with
  | some (.file d) =>
    match jsonParse env d with
    | some v => v
    | none => some []
  | _ => some []

def readInstalled (env : Env) (t : Tree) : Option (Option Installed × Tree) :=
  (ensureDirs env t).bind fun t1 => some (parseInstalled env t1, t1)

def writeInstalled (env : Env) (t : Tree) (obj : Installed) : Option Tree :=
  (ensureDirs env t).bind fun t1 => writeFileSync t1 (INSTALLED_FILE env) (.json obj)

/-- The property names of `Object.prototype`. -/
def protoKeys : List String :=
  ["constructor", "__defineGetter__", "__defineSetter__", "hasOwnProperty",
    "__lookupGetter__", "__lookupSetter__", "isPrototypeOf", "propertyIsEnumerable",
    "toString", "valueOf", "__proto__", "toLocaleString"]

/-- The value of `obj[key]`: a record of the object, a property inherited from
`Object.prototype` (truthy, without the fields of a record), or `undefined`. -/
inductive Lookup where
  | undefined
  | inherited
  | record (r : InstallRecord)
deriving DecidableEq, Repr

/-- JavaScript `obj[key]`. -/
def getKey (obj : Installed) (key : String) : Lookup :=
  match obj.lookup key with
  | some r => .record r
  | none => if key ∈ protoKeys then .inherited else .undefined

/-- The own keys after `obj[key] = value`, when `key` is an own key or is not `__proto__`. -/
def setOwn : Installed → String → InstallRecord → Installed
  | [], key, v => [(key, v)]
  | (k, w) :: rest, key, v => if k = key then (k, v) :: rest else (k, w) :: setOwn rest key v

/-- JavaScript `obj[key] = value`; assigning to `__proto__` sets the prototype
and gives the object no own key. -/
def setKey (obj : Installed) (key : String) (v : InstallRecord) : Installed :=
  if (obj.lookup key).isNone && key == "__proto__" then obj else setOwn obj key v

/-- JavaScript `delete obj[key]`. -/
def deleteKey (obj : Installed) (key : String) : Installed := obj.filter fun kv => kv.1 ≠ key

def sha256File (env : Env) (t : Tree) (filePath : Path) : Option String :=
  match stat t filePath with
  | some (.file d) => some (env.sha256Hex d)
  | _ => none

/-- Calls of `onProgress`, one per chunk, when `content-length` is positive. -/
def downloadProgress (total : Nat) : Nat → List (List Nat) → List Percent
  | _, [] => []
  | done, chunk :: rest =>
    let done1 := done + chunk.length
    if 0 < total then ⟨done1, total⟩ :: downloadProgress total done1 rest
    else downloadProgress total done1 rest

/-- Returns the new tree, the progress calls and the error, if any.  A stream
that breaks leaves the bytes received so far in `outPath`. -/
def downloadToFile (env : Env) (t : Tree) (url : String) (outPath : Path) :
    Tree × List Percent × Option Err :=
  match env.request url with
  | .rejected => (t, [], some .network)
  | .stream total chunks finished seen =>
    match writeFileSync t outPath (.raw chunks.flatten) with
    | none => (t, (downloadProgress total 0 (chunks.take seen)), some .fs)
    | some t1 => (t1, downloadProgress total 0 chunks, if finished then none else some .network)

def listTopLevelFolders (t : Tree) (dir : Path) : List String :=
  match readdirSync t dir with
  | some entries => (entries.filter fun d => d.isDirectory).map fun d => d.name
  | none => []

/-- The `for (const e of entries)` loop of `findExeRecursive`: the path it
returns, or else the stack after the pushes (top of the stack first). -/
def scanEntries (lower : String → String) (cur : Path) (exeName : String) :
    List Dirent → List Path → Path ⊕ List Path
  | [], stack => .inr stack
  | e :: es, stack =>
    let p := cur ++ [e.name]
    if e.isDirectory then scanEntries lower cur exeName es (p :: stack)
    else if e.isFile && lower e.name = lower exeName then .inl p
    else scanEntries lower cur exeName es stack

/-- The `while (stack.length)` loop of `findExeRecursive`, at most `fuel`
iterations; the outer `none` means the fuel ran out. -/
def findLoop (lower : String → String) (t : Tree) (exeName : String) :
    Nat → List Path → Option (Option Path)
  | _, [] => some none
  | 0, _ :: _ => none
  | fuel + 1, cur :: stack =>
    match readdirSync t cur with
    | none => findLoop lower t exeName fuel stack
    | some entries =>
      match scanEntries lower cur exeName entries stack with
      | .inl p => some (some p)
      | .inr stack1 => findLoop lower t exeName fuel stack1

/-- Number of directories in a listing, and a bound on the iterations spent
below any one of them. -/
def dirCost : Tree → Nat × Nat
  | .nil => (0, 1)
  | .file _ _ r => dirCost r
  | .special _ r => dirCost r
  | .dir _ c r => ((dirCost r).1 + 1, max (dirCost r).2 (1 + (dirCost c).1 * (dirCost c).2))

/-- Bound on the iterations of `findLoop` started at a directory with this listing. -/
def visitCost (t : Tree) : Nat := 1 + (dirCost t).1 * (dirCost t).2

/-- Bound on the iterations of `findLoop` started at a path. -/
def visitCostAt (t : Tree) (p : Path) : Nat :=
  match stat t p with
  | some (.dir c) => visitCost c
  | _ => 1

def findExeRecursive (lower : String → String) (t : Tree) (dir : Path) (exeName : String) :
    Option Path :=
  (findLoop lower t exeName (visitCostAt t dir) [dir]).getD none

/-- Node `zip.extractEntryTo(entry, outDir, true, true)`; `none` when it throws. -/
def extractEntryTo (t : Tree) (entry : ZipEntry) (outDir : Path) : Option Tree :=
  (mkdirSync t (dirname (outDir ++ entry.entryName))).bind fun t1 =>
    writeFileSync t1 (outDir ++ entry.entryName) (.raw entry.content)

/-- The `for (const entry of entries)` loop of `extractZipWithProgress`. -/
def extractLoop (outDir : Path) (total : Nat) :
    List ZipEntry → Nat → Tree → List Percent → Tree × List Percent × Option Err
  | [], _, t, sent => (t, sent, none)
  | entry :: rest, i, t, sent =>
    match extractEntryTo t entry outDir with
    | none => (t, sent, some .zip)
    | some t1 => extractLoop outDir total rest (i + 1) t1 (sent ++ [⟨i + 1, total⟩])

def extractZipWithProgress (env : Env) (t : Tree) (zipPath outDir : Path) :
    Tree × List Percent × Option Err :=
  match stat t zipPath with
  | some (.file d) =>
    match env.zipEntries d with
    | none => (t, [], some .zip)
    | some all =>
      let entries := all.filter fun e => !e.isDirectory
      let total := max entries.length 1
      extractLoop outDir total entries 0 t []
  | _ => (t, [], some .zip)

deriving instance DecidableEq for Except

/-- Result of an `async` function of `main.js`: the file system it leaves, the
progress calls it made and the value it resolved or rejected with. -/
structure Outcome (α : Type) where
  fs : Tree
  events : List Event
  result : Except Err α
deriving DecidableEq

def stage (s : String) (ps : List Percent) : List Event := ps.map fun p => (p, s)

def tmpZipOf (env : Env) (game : Game) : Path :=
  pathJoin env.win32 (META_DIR env) (game.id ++ ".zip")

def gameDirOf (env : Env) (id : String) : Path := pathJoin env.win32 (INSTALL_ROOT env) id

/-- The test `fs.existsSync(gameDir)` for `gameDir = path.join(INSTALL_ROOT, id)`. -/
def gameDirExists (env : Env) (t : Tree) (id : String) : Bool :=
  existsJoined t env.win32 (INSTALL_ROOT env) id

def mismatchMessage : String := "SHA256 mismatch. Download corrupted or file changed."

/-- The condition `game.sha256 && String(game.sha256).trim().length > 0`. -/
def hasDigest (env : Env) (game : Game) : Bool :=
  match game.sha256 with
  | none => false
  | some s => s != "" && decide (0 < (env.trim s).length)

/-- Lines 128-134 of `installGame`: the new tree, whether `sha256File` was
called, and the error thrown, if any. -/
def verifyStage (env : Env) (t : Tree) (game : Game) : Tree × Bool × Option Err :=
  if hasDigest env game then
    match sha256File env t (tmpZipOf env game) with
    | none => (t, true, some .fs)
    | some got =>
      if env.toLowerCase got ≠ env.toLowerCase (game.sha256.getD "") then
        (rmSync t (tmpZipOf env game), true, some (.error mismatchMessage))
      else (t, true, none)
  else (t, false, none)

def exeNotFoundMessage (exe : String) (tops : List String) : String :=
  "EXE not found: " ++ exe ++ ". " ++
    (if tops.length ≠ 0 then "Top folder(s) in ZIP: " ++ joinWith ", " tops
     else "ZIP may be empty or different.")

/-- Lines 141-156 of `installGame`: `(exePath, baseDir)`, or the error thrown. -/
def locateStage (env : Env) (t : Tree) (game : Game) : Except Err (Path × Path) :=
  let gameDir := gameDirOf env game.id
  let exePath := pathJoin env.win32 gameDir game.exe
  if !existsJoined t env.win32 gameDir game.exe then
    match findExeRecursive env.toLowerCase t gameDir game.exe with
    | some found => .ok (found, dirname found)
    | none => .error (.error (exeNotFoundMessage game.exe (listTopLevelFolders t gameDir)))
  else .ok (exePath, gameDir)

/-- Lines 158-165 of `installGame`: the new tree, or the error thrown. -/
def commitStage (env : Env) (t : Tree) (game : Game) (exePath baseDir : Path) :
    Except Err Tree :=
  match readInstalled env t with
  | none => .error .fs
  | some (none, _) => .error .typeError
  | some (some installed, t1) =>
    match writeInstalled env t1 (setKey installed game.id
      { gameDir := gameDirOf env game.id, baseDir := baseDir, exe := basename exePath,
        installedAt := env.now }) with
    | none => .error .fs
    | some t2 => .ok t2

def zero : Percent := ⟨0, 1⟩
def hundred : Percent := ⟨1, 1⟩

def installGame (env : Env) (t : Tree) (game : Game) : Outcome Bool :=
  match ensureDirs env t with
  | none => ⟨t, [], .error .fs⟩
  | some t0 =>
  let tmpZip := tmpZipOf env game
  let gameDir := gameDirOf env game.id
  let t1 := if gameDirExists env t0 game.id then rmSync t0 gameDir else t0
  match mkdirSync t1 gameDir with
  | none => ⟨t1, [], .error .fs⟩
  | some t2 =>
  let ev1 : List Event := [(zero, "Downloading")]
  match downloadToFile env t2 game.download tmpZip with
  | (t3, ps, some e) => ⟨t3, ev1 ++ stage "Downloading" ps, .error e⟩
  | (t3, ps, none) =>
  let ev2 := ev1 ++ stage "Downloading" ps ++ [(zero, "Verifying")]
  match verifyStage env t3 game with
  | (t4, _, some e) => ⟨t4, ev2, .error e⟩
  | (t4, _, none) =>
  let ev3 := ev2 ++ [(zero, "Extracting")]
  match extractZipWithProgress env t4 tmpZip gameDir with
  | (t5, ps2, some e) => ⟨t5, ev3 ++ stage "Extracting" ps2, .error e⟩
  | (t5, ps2, none) =>
  let ev4 := ev3 ++ stage "Extracting" ps2
  let t6 := rmSync t5 tmpZip
  match locateStage env t6 game with
  | .error e => ⟨t6, ev4, .error e⟩
  | .ok (exePath, baseDir) =>
  match commitStage env t6 game exePath baseDir with
  | .error e => ⟨t6, ev4, .error e⟩
  | .ok t7 => ⟨t7, ev4 ++ [(hundred, "Done")], .ok true⟩

def uninstallGame (env : Env) (t : Tree) (gameId : String) : Outcome Bool :=
  match ensureDirs env t with
  | none => ⟨t, [], .error .fs⟩
  | some t0 =>
  match readInstalled env t0 with
  | none => ⟨t0, [], .error .fs⟩
  | some (none, t1) => ⟨t1, [], .error .typeError⟩
  | some (some installed, t1) =>
  let gameDir := match getKey installed gameId with
    | .record r => r.gameDir
    | _ => gameDirOf env gameId
  let there := match getKey installed gameId with
    | .record r => existsSync t1 r.gameDir
    | _ => gameDirExists env t1 gameId
  let t2 := if there then rmSync t1 gameDir else t1
  match writeInstalled env t2 (deleteKey installed gameId) with
  | none => ⟨t2, [], .error .fs⟩
  | some t3 => ⟨t3, [], .ok true⟩

/-- The call `execFile(file, options)` with `options.cwd = cwd`. -/
structure Spawn where
  file : Path
  cwd : Path
deriving DecidableEq, Repr

def notInstalledMessage : String := "Game not installed."

def launchNotFoundMessage (env : Env) (exe : String) (baseDir : Path) : String :=
  "EXE not found: " ++ exe ++ ". (Installed base: " ++ env.pathText baseDir ++ ")"

/-- Returns the `execFile` call it made. -/
def launchGame (env : Env) (t : Tree) (gameId : String) (exeNameFromUI : String) :
    Outcome Spawn :=
  match ensureDirs env t with
  | none => ⟨t, [], .error .fs⟩
  | some t0 =>
  match readInstalled env t0 with
  | none => ⟨t0, [], .error .fs⟩
  | some (none, t1) => ⟨t1, [], .error .typeError⟩
  | some (some installed, t1) =>
  match getKey installed gameId with
  | .record r =>
    let exe : String := if r.exe ≠ "" then r.exe else exeNameFromUI
    let exePath := pathJoin env.win32 r.baseDir exe
    if !existsJoined t1 env.win32 r.baseDir exe then
      ⟨t1, [], .error (.error (launchNotFoundMessage env exe r.baseDir))⟩
    else ⟨t1, [], .ok ⟨exePath, r.baseDir⟩⟩
  | _ => ⟨t1, [], .error (.error notInstalledMessage)⟩

/-- The `games.map(...)` of the `get-games` handler, which sets
`installed: !!installed[g.id]`, on the value that `readInstalled` returned. -/
def installedFlags (games : List Game) : Option Installed → Except Err (List (Game × Bool))
  | none => if games = [] then .ok [] else .error .typeError
  | some installed =>
    .ok (games.map fun g => (g, decide (getKey installed g.id ≠ .undefined)))

/-- The `get-games` handler: each game with its `installed` flag. -/
def getGames (env : Env) (games : List Game) (t : Tree) : Outcome (List (Game × Bool)) :=
  match readInstalled env t with
  | none => ⟨t, [], .error .fs⟩
  | some (installed, t1) => ⟨t1, [], installedFlags games installed⟩

/-! ## Notions used in the statements -/

/-- An entry without the listing below it. -/
def Entry.shape : Entry → Entry
  | .dir _ => .dir .nil
  | e => e

/-- What kind of thing a path resolves to. -/
def look (t : Tree) (p : Path) : Option Entry := (stat t p).map Entry.shape

/-- The directories and the file that `ensureDirs` creates are there. -/
def Ready (env : Env) (t : Tree) : Prop :=
  existsSync t (INSTALL_ROOT env) = true ∧ existsSync t (META_DIR env) = true ∧
    existsSync t (INSTALLED_FILE env) = true

/-- No directory lists a name twice. -/
def wellFormed : Tree → Bool
  | .nil => true
  | .file n _ r => (r.find n).isNone && wellFormed r
  | .special n r => (r.find n).isNone && wellFormed r
  | .dir n c r => (r.find n).isNone && wellFormed c && wellFormed r

/-- Some regular file below `dir`, at any depth, has a name that `lower` maps
to the same string as `exeName`. -/
def HasExe (lower : String → String) (t : Tree) (dir : Path) (exeName : String) : Prop :=
  ∃ rel d, rel ≠ [] ∧ stat t (dir ++ rel) = some (.file d) ∧
    lower (basename (dir ++ rel)) = lower exeName

/-- The path `p` is a regular file below `dir` whose name `lower` maps to the
same string as `exeName`. -/
def IsExeAt (lower : String → String) (t : Tree) (dir : Path) (exeName : String)
    (p : Path) : Prop :=
  ∃ rel d, rel ≠ [] ∧ p = dir ++ rel ∧ stat t p = some (.file d) ∧
    lower (basename p) = lower exeName

/-- The paths that one pass over a listing pushes. -/
def pushed (cur : Path) (es : List Dirent) : List Path :=
  (es.filter fun e => e.isDirectory).map fun e => cur ++ [e.name]

/-- The path is a directory and nothing is in it. -/
def EmptyDir (t : Tree) (p : Path) : Prop :=
  look t p = some (.dir .nil) ∧ ∀ x, look t (p ++ [x]) = none

/-- A normalised path: no segment is empty, `.` or `..`. -/
def isNormal (p : Path) : Bool := p.all fun seg => seg != "" && seg != "." && seg != ".."

/-- A character allowed in a file name on every platform: not a control
character, not a separator, none of `< > : " | ? *`. -/
def portableChar (c : Char) : Bool :=
  decide (32 ≤ c.toNat) && decide (c.toNat ≠ 127) &&
    !(c.toNat ∈ [47, 92, 60, 62, 58, 34, 124, 63, 42])

/-- One path segment: not empty, not `.` or `..`, made of portable characters. -/
def isSegment (s : String) : Bool :=
  s != "" && s != "." && s != ".." && s.data.all portableChar

/-- A plain file name: one path segment of at most 50 characters. -/
def plainName (s : String) : Bool := isSegment s && decide (s.length ≤ 50)

/-! ## Sample inputs -/

/-- Lower case of the letters `A` to `Z`. -/
def asciiLower (s : String) : String := String.mk (s.data.map Char.toLower)

/-- Removal of leading and trailing space, tab, CR and LF. -/
def asciiTrim (s : String) : String :=
  String.mk ((s.data.dropWhile Char.isWhitespace).reverse.dropWhile Char.isWhitespace).reverse

/-- A POSIX platform with `appData = /AppData`, a server that sends four bytes
in two chunks, a hash that is always `def456`, an archive with the given
entries, and a `JSON.parse` that knows the text `null` and rejects other
foreign bytes. -/
def sampleEnv (entries : Option (List ZipEntry)) : Env where
  win32 := false
  appData := ["AppData"]
  pathText := fun p => "/" ++ joinWith "/" p
  toLowerCase := asciiLower
  trim := asciiTrim
  parseJson := fun bytes => if bytes = [110, 117, 108, 108] then some none else none
  request := fun _ => .stream 4 [[1, 2], [3, 4]] true 0
  sha256Hex := fun _ => "def456"
  zipEntries := fun _ => entries
  now := "2024-01-01T00:00:00.000Z"

def sampleGame (sha256 : Option String) (exe : String) : Game :=
  ⟨"g1", "https://x/g1.zip", sha256, exe⟩

/-- A tree that holds the downloaded archive of `g1`. -/
def sampleDownloaded : Tree :=
  .dir "AppData"
    (.dir "VyltrexLauncher" (.dir "Meta" (.file "g1.zip" (.raw [1, 2, 3, 4]) .nil) .nil) .nil)
    .nil

/-- A tree with `g0` installed. -/
def sampleStore : Tree :=
  .dir "AppData"
    (.dir "VyltrexLauncher"
      (.dir "Games" (.dir "g0" (.file "Game.exe" (.raw [7]) .nil) .nil)
        (.dir "Meta"
          (.file "installed.json"
            (.json [("g0", ⟨["AppData", "VyltrexLauncher", "Games", "g0"],
              ["AppData", "VyltrexLauncher", "Games", "g0"], "Game.exe", "then"⟩)]) .nil)
          .nil))
      .nil)
    .nil

/-- A tree where the record of `g1` names a directory outside `INSTALL_ROOT`. -/
def sampleForeign : Tree :=
  .dir "AppData"
    (.dir "VyltrexLauncher"
      (.dir "Games" (.dir "g1" (.file "Game.exe" (.raw [7]) .nil) .nil)
        (.dir "Meta"
          (.file "installed.json"
            (.json [("g1", ⟨["Elsewhere", "g1"], ["Elsewhere", "g1"], "Game.exe", "then"⟩)]) .nil)
          .nil))
      .nil)
    .nil

/-- A tree whose installed-games file holds the text `null`. -/
def sampleNull : Tree :=
  .dir "AppData"
    (.dir "VyltrexLauncher"
      (.dir "Games" .nil
        (.dir "Meta" (.file "installed.json" (.raw [110, 117, 108, 108]) .nil) .nil))
      .nil)
    .nil

/-- A tree with `g1` installed under a wrapper folder. -/
def sampleInstalled : Tree :=
  .dir "AppData"
    (.dir "VyltrexLauncher"
      (.dir "Games" (.dir "g1" (.dir "wrapper" (.file "Game.exe" (.raw [7]) .nil) .nil) .nil)
        (.dir "Meta"
          (.file "installed.json"
            (.json [("g1", ⟨["AppData", "VyltrexLauncher", "Games", "g1"],
              ["AppData", "VyltrexLauncher", "Games", "g1", "wrapper"], "Game.exe", "then"⟩)])
            .nil)
          .nil))
      .nil)
    .nil

/-- A tree with the executable two folders below the install directory. -/
def sampleNested : Tree :=
  .dir "AppData"
    (.dir "VyltrexLauncher"
      (.dir "Games"
        (.dir "g1"
          (.file "readme.txt" (.raw [1])
            (.dir "docs" .nil
              (.dir "wrapper"
                (.dir "bin" (.special "lock" (.file "game.EXE" (.raw [7]) .nil)) .nil) .nil)))
          .nil)
        .nil)
      .nil)
    .nil


/-! ## File-system lemmas -/

namespace Tree

theorem find_cons (n : String) (e : Entry) (r : Tree) (x : String) :
    (cons n e r).find x = if n = x then some e else r.find x := by
  cases e <;> rfl

theorem find_setEntry (t : Tree) (n : String) (e : Entry) (x : String) :
    (t.setEntry n e).find x = if n = x then some e else t.find x := by
  induction t with
  | nil => simp [setEntry, find_cons, find]
  | file m d r ih =>
    by_cases hm : m = n
    · subst hm; simp only [setEntry, if_true, find_cons, find]; split_ifs <;> rfl
    · simp only [setEntry, hm, if_false, find, ih]
      by_cases hx : m = x
      · subst hx; simp [Ne.symm hm]
      · simp [hx]
  | special m r ih =>
    by_cases hm : m = n
    · subst hm; simp only [setEntry, if_true, find_cons, find]; split_ifs <;> rfl
    · simp only [setEntry, hm, if_false, find, ih]
      by_cases hx : m = x
      · subst hx; simp [Ne.symm hm]
      · simp [hx]
  | dir m c r _ ih =>
    by_cases hm : m = n
    · subst hm; simp only [setEntry, if_true, find_cons, find]; split_ifs <;> rfl
    · simp only [setEntry, hm, if_false, find, ih]
      by_cases hx : m = x
      · subst hx; simp [Ne.symm hm]
      · simp [hx]

theorem find_remove (t : Tree) (n x : String) :
    (t.remove n).find x = if n = x then none else t.find x := by
  induction t with
  | nil => simp [remove, find]
  | file m d r ih =>
    by_cases hm : m = n
    · subst hm; simp only [remove, if_true, ih, find]; split_ifs <;> rfl
    · simp only [remove, hm, if_false, find, ih]
      by_cases hx : m = x
      · subst hx; simp [Ne.symm hm]
      · simp [hx]
  | special m r ih =>
    by_cases hm : m = n
    · subst hm; simp only [remove, if_true, ih, find]; split_ifs <;> rfl
    · simp only [remove, hm, if_false, find, ih]
      by_cases hx : m = x
      · subst hx; simp [Ne.symm hm]
      · simp [hx]
  | dir m c r _ ih =>
    by_cases hm : m = n
    · subst hm; simp only [remove, if_true, ih, find]; split_ifs <;> rfl
    · simp only [remove, hm, if_false, find, ih]
      by_cases hx : m = x
      · subst hx; simp [Ne.symm hm]
      · simp [hx]

/-- Writing back the entry a name already has changes nothing. -/
theorem setEntry_find (t : Tree) (n : String) (e : Entry) (h : t.find n = some e) :
    t.setEntry n e = t := by
  induction t with
  | nil => simp [find] at h
  | file m d r ih =>
    by_cases hm : m = n
    · subst hm; simp [find] at h; subst h; simp [setEntry, cons]
    · simp [find, hm] at h; simp [setEntry, hm, ih h]
  | special m r ih =>
    by_cases hm : m = n
    · subst hm; simp [find] at h; subst h; simp [setEntry, cons]
    · simp [find, hm] at h; simp [setEntry, hm, ih h]
  | dir m c r _ ih =>
    by_cases hm : m = n
    · subst hm; simp [find] at h; subst h; simp [setEntry, cons]
    · simp [find, hm] at h; simp [setEntry, hm, ih h]

end Tree


theorem stat_cons (t : Tree) (n : String) (ns : Path) :
    stat t (n :: ns) =
      match t.find n with
      | some (.dir c) => stat c ns
      | some e => if ns = [] then some e else none
      | none => none := by
  rw [stat]

theorem look_nil (t : Tree) : look t [] = some (.dir .nil) := by
  simp [look, stat, Entry.shape]

/-- Resolving below a name depends only on what the name is bound to. -/
theorem look_cons_congr (t u : Tree) (n : String) (ns : Path)
    (h : t.find n = u.find n) : look t (n :: ns) = look u (n :: ns) := by
  simp only [look, stat_cons, h]

theorem look_cons_dir (t c : Tree) (n : String) (ns : Path)
    (h : t.find n = some (.dir c)) : look t (n :: ns) = look c ns := by
  simp only [look, stat_cons, h]

theorem look_cons_file (t : Tree) (d : Data) (n m : String) (ns : Path)
    (h : t.find n = some (.file d)) : look t (n :: m :: ns) = none := by
  simp [look, stat_cons, h]

theorem look_cons_special (t : Tree) (n m : String) (ns : Path)
    (h : t.find n = some .special) : look t (n :: m :: ns) = none := by
  simp [look, stat_cons, h]

theorem look_cons_none (t : Tree) (n : String) (ns : Path)
    (h : t.find n = none) : look t (n :: ns) = none := by
  simp [look, stat_cons, h]

theorem look_empty (p : Path) (hp : p ≠ []) : look .nil p = none := by
  cases p with
  | nil => exact absurd rfl hp
  | cons n ns => exact look_cons_none _ _ _ rfl

/-- Removal leaves everything that is not at or below the removed path. -/
theorem look_rmSync (t : Tree) (p q : Path) (h : ∀ s, q ≠ p ++ s) :
    look (rmSync t p) q = look t q := by
  induction p generalizing t q with
  | nil => exact absurd rfl (h q)
  | cons n ns ih =>
    cases q with
    | nil => simp [look_nil]
    | cons b s =>
      cases ns with
      | nil =>
        have hb : n ≠ b := fun hnb => h s (by simp [hnb])
        apply look_cons_congr
        simp [rmSync, Tree.find_remove, hb]
      | cons m ms =>
        rw [rmSync]
        split
        · next c hc =>
          by_cases hb : n = b
          · subst hb
            rw [look_cons_dir _ (rmSync c (m :: ms)) _ _ (by rw [Tree.find_setEntry]; simp),
              look_cons_dir _ _ _ _ hc]
            exact ih c s (fun s1 hs => h s1 (by simp [hs]))
          · apply look_cons_congr
            simp [Tree.find_setEntry, hb]
        · rfl


/-- Creating a directory changes only the leading parts of its path. -/
theorem look_mkdirSync (t t1 : Tree) (p q : Path) (hmk : mkdirSync t p = some t1)
    (h : ∀ s, p ≠ q ++ s) : look t1 q = look t q := by
  induction p generalizing t t1 q with
  | nil => simp [mkdirSync] at hmk; subst hmk; rfl
  | cons n ns ih =>
    cases q with
    | nil => exact absurd rfl (h _)
    | cons b s =>
      rw [mkdirSync] at hmk
      by_cases hb : n = b
      · subst hb
        have h1 : ∀ s1, ns ≠ s ++ s1 := fun s1 hs => h s1 (by simp [hs])
        split at hmk
        · next c hc =>
          simp only [Option.map_eq_some'] at hmk
          obtain ⟨c1, hc1, rfl⟩ := hmk
          rw [look_cons_dir _ c1 _ _ (by rw [Tree.find_setEntry]; simp), look_cons_dir _ _ _ _ hc]
          exact ih c c1 s hc1 h1
        · simp at hmk
        · next hc =>
          simp only [Option.map_eq_some'] at hmk
          obtain ⟨c1, hc1, rfl⟩ := hmk
          rw [look_cons_dir _ c1 _ _ (by rw [Tree.find_setEntry]; simp), look_cons_none _ _ _ hc,
            ih .nil c1 s hc1 h1]
          cases s with
          | nil => exact absurd rfl (h1 ns)
          | cons x xs => exact look_cons_none _ _ _ rfl
      · have hfind : ∀ c1 : Tree, (t.setEntry n (.dir c1)).find b = t.find b := by
          intro c1; simp [Tree.find_setEntry, hb]
        split at hmk
        · simp only [Option.map_eq_some'] at hmk
          obtain ⟨c1, _, rfl⟩ := hmk
          exact look_cons_congr _ _ _ _ (hfind c1)
        · simp at hmk
        · simp only [Option.map_eq_some'] at hmk
          obtain ⟨c1, _, rfl⟩ := hmk
          exact look_cons_congr _ _ _ _ (hfind c1)

/-- After `mkdirSync` the path is a directory. -/
theorem look_mkdirSync_self (t t1 : Tree) (p : Path) (hmk : mkdirSync t p = some t1) :
    look t1 p = some (.dir .nil) := by
  induction p generalizing t t1 with
  | nil => exact look_nil _
  | cons n ns ih =>
    rw [mkdirSync] at hmk
    split at hmk
    · next c hc =>
      simp only [Option.map_eq_some'] at hmk
      obtain ⟨c1, hc1, rfl⟩ := hmk
      rw [look_cons_dir _ c1 _ _ (by rw [Tree.find_setEntry]; simp)]
      exact ih c c1 hc1
    · simp at hmk
    · simp only [Option.map_eq_some'] at hmk
      obtain ⟨c1, hc1, rfl⟩ := hmk
      rw [look_cons_dir _ c1 _ _ (by rw [Tree.find_setEntry]; simp)]
      exact ih .nil c1 hc1

/-- Writing a file changes only the path written. -/
theorem look_writeFileSync (t t1 : Tree) (p q : Path) (d : Data)
    (hw : writeFileSync t p d = some t1) (h : q ≠ p) : look t1 q = look t q := by
  induction p generalizing t t1 q with
  | nil => simp [writeFileSync] at hw
  | cons n ns ih =>
    cases q with
    | nil => simp [look_nil]
    | cons b s =>
      by_cases hb : n = b
      · subst hb
        have hs : s ≠ ns := fun e => h (by rw [e])
        cases ns with
        | nil =>
          rw [writeFileSync] at hw
          cases s with
          | nil => exact absurd rfl hs
          | cons x xs =>
            have h1 : look t1 (n :: x :: xs) = none := by
              split at hw
              · simp at hw
              · simp only [Option.some.injEq] at hw; subst hw
                exact look_cons_file _ d _ _ _ (by rw [Tree.find_setEntry]; simp)
            rw [h1]
            cases hf : t.find n with
            | none => exact (look_cons_none _ _ _ hf).symm
            | some e =>
              cases e with
              | file d1 => exact (look_cons_file _ d1 _ _ _ hf).symm
              | special => exact (look_cons_special _ _ _ _ hf).symm
              | dir c => simp [hf] at hw
        | cons m ms =>
          rw [writeFileSync] at hw
          split at hw
          · next c hc =>
            simp only [Option.map_eq_some'] at hw
            obtain ⟨c1, hc1, rfl⟩ := hw
            rw [look_cons_dir _ c1 _ _ (by rw [Tree.find_setEntry]; simp), look_cons_dir _ _ _ _ hc]
            exact ih c c1 s hc1 hs
          · simp at hw
      · have hfind : ∀ e : Entry, (t.setEntry n e).find b = t.find b := by
          intro e; simp [Tree.find_setEntry, hb]
        cases ns with
        | nil =>
          rw [writeFileSync] at hw
          split at hw
          · simp at hw
          · simp only [Option.some.injEq] at hw; subst hw
            exact look_cons_congr _ _ _ _ (hfind _)
        | cons m ms =>
          rw [writeFileSync] at hw
          split at hw
          · simp only [Option.map_eq_some'] at hw
            obtain ⟨c1, _, rfl⟩ := hw
            exact look_cons_congr _ _ _ _ (hfind _)
          · simp at hw

/-- After `writeFileSync` the path holds the data written. -/
theorem stat_writeFileSync_self (t t1 : Tree) (p : Path) (d : Data)
    (hw : writeFileSync t p d = some t1) : stat t1 p = some (.file d) := by
  induction p generalizing t t1 with
  | nil => simp [writeFileSync] at hw
  | cons n ns ih =>
    cases ns with
    | nil =>
      rw [writeFileSync] at hw
      split at hw
      · simp at hw
      · simp only [Option.some.injEq] at hw; subst hw
        simp [stat_cons, Tree.find_setEntry]
    | cons m ms =>
      rw [writeFileSync] at hw
      split at hw
      · next c hc =>
        simp only [Option.map_eq_some'] at hw
        obtain ⟨c1, hc1, rfl⟩ := hw
        rw [stat_cons]
        simp only [Tree.find_setEntry, if_true]
        exact ih c c1 hc1
      · simp at hw

/-- After `rmSync` the path does not exist. -/
theorem stat_rmSync_self (t : Tree) (p : Path) (hp : p ≠ []) : stat (rmSync t p) p = none := by
  induction p generalizing t with
  | nil => exact absurd rfl hp
  | cons n ns ih =>
    cases ns with
    | nil => simp [rmSync, stat_cons, Tree.find_remove]
    | cons m ms =>
      rw [rmSync]
      split
      · next c hc =>
        rw [stat_cons]
        simp only [Tree.find_setEntry, if_true]
        exact ih c (by simp)
      · next hc =>
        rw [stat_cons]
        cases hf : t.find n with
        | none => rfl
        | some e =>
          cases e with
          | file d1 => simp
          | special => simp
          | dir c => exact absurd hf (hc c)

theorem existsSync_eq_look (t : Tree) (p : Path) : existsSync t p = (look t p).isSome := by
  simp [existsSync, look]

/-- A path that exists has existing prefixes. -/
theorem existsSync_of_append (t : Tree) (p s : Path) (h : existsSync t (p ++ s) = true) :
    existsSync t p = true := by
  induction p generalizing t with
  | nil => simp [existsSync, stat]
  | cons n ns ih =>
    simp only [existsSync, List.cons_append, stat_cons] at h ⊢
    cases hf : t.find n with
    | none => simp [hf] at h
    | some e =>
      cases e with
      | file d1 =>
        simp only [hf] at h ⊢
        by_cases hn : ns = []
        · simp [hn]
        · have : ns ++ s ≠ [] := by simp [hn]
          simp [this] at h
      | special =>
        simp only [hf] at h ⊢
        by_cases hn : ns = []
        · simp [hn]
        · have : ns ++ s ≠ [] := by simp [hn]
          simp [this] at h
      | dir c =>
        simp only [hf] at h ⊢
        exact ih c h

/-! ## `path.join` on plain names -/

theorem foldl_normStep_normal (acc p : Path) (h : isNormal p = true) :
    p.foldl normStep acc = acc ++ p := by
  induction p generalizing acc with
  | nil => simp
  | cons seg rest ih =>
    simp only [isNormal, List.all_cons, Bool.and_eq_true, bne_iff_ne, ne_eq] at h
    obtain ⟨⟨⟨h1, h2⟩, h3⟩, hrest⟩ := h
    have hstep : normStep acc seg = acc ++ [seg] := by simp [normStep, h1, h2, h3]
    rw [List.foldl_cons, hstep, ih _ (by simpa [isNormal] using hrest)]
    simp

theorem normalize_of_normal (p : Path) (h : isNormal p = true) : normalize p = p := by
  simpa [normalize] using foldl_normStep_normal [] p h

theorem isNormal_append (p q : Path) : isNormal (p ++ q) = (isNormal p && isNormal q) := by
  simp [isNormal, List.all_append]

theorem splitChars_of_no_sep (sep : Char → Bool) (cs : List Char)
    (h : ∀ c ∈ cs, sep c = false) : splitChars sep cs = [cs] := by
  induction cs with
  | nil => rfl
  | cons c cs ih =>
    have hc := h c (List.mem_cons_self _ _)
    have hcs := ih (fun x hx => h x (List.mem_cons_of_mem _ hx))
    simp [splitChars, hc, hcs]

theorem isSep_of_portable (win32 : Bool) (c : Char) (h : portableChar c = true) :
    isSep win32 c = false := by
  simp only [portableChar, Bool.and_eq_true, decide_eq_true_eq, Bool.not_eq_true',
    decide_eq_false_iff_not, List.mem_cons, List.mem_singleton, not_or] at h
  obtain ⟨_, h47, h92, _⟩ := h
  simp [isSep, h47, h92]

theorem isSegment_iff (s : String) :
    isSegment s = true ↔
      s ≠ "" ∧ s ≠ "." ∧ s ≠ ".." ∧ ∀ c ∈ s.data, portableChar c = true := by
  simp [isSegment, and_assoc]

theorem segments_plain (win32 : Bool) (s : String) (h : isSegment s = true) :
    segments win32 s = [s] := by
  obtain ⟨_, _, _, hc⟩ := (isSegment_iff s).1 h
  simp [segments, splitChars_of_no_sep _ _ (fun c hx => isSep_of_portable win32 c (hc c hx))]

theorem isNormal_singleton_of_plain (s : String) (h : isSegment s = true) :
    isNormal [s] = true := by
  obtain ⟨h1, h2, h3, _⟩ := (isSegment_iff s).1 h
  simp [isNormal, h1, h2, h3]

/-- For a plain name, `path.join(base, name)` is the child `name` of `base`. -/
theorem pathJoin_plain (win32 : Bool) (base : Path) (s : String)
    (hb : isNormal base = true) (hs : isSegment s = true) :
    pathJoin win32 base s = base ++ [s] := by
  rw [pathJoin, segments_plain win32 s hs]
  apply normalize_of_normal
  rw [isNormal_append, hb, isNormal_singleton_of_plain s hs]
  rfl

theorem isSegment_zip (s : String) (h : isSegment s = true) :
    isSegment (s ++ ".zip") = true := by
  obtain ⟨_, _, _, hc⟩ := (isSegment_iff s).1 h
  rw [isSegment_iff]
  have hlen : (s ++ ".zip").length = s.length + 4 := by
    simp [String.length_append]
    rfl
  refine ⟨?_, ?_, ?_, ?_⟩
  · intro he
    have h0 : ("" : String).length = 0 := rfl
    rw [he] at hlen; omega
  · intro he
    have h1 : ("." : String).length = 1 := rfl
    rw [he] at hlen; omega
  · intro he
    have h2 : (".." : String).length = 2 := rfl
    rw [he] at hlen; omega
  · intro c hx
    simp only [String.data_append, List.mem_append] at hx
    rcases hx with hx | hx
    · exact hc c hx
    · have : c = '.' ∨ c = 'z' ∨ c = 'i' ∨ c = 'p' := by simpa using hx
      rcases this with rfl | rfl | rfl | rfl <;> decide

theorem isSegment_of_plain (s : String) (h : plainName s = true) : isSegment s = true := by
  simp only [plainName, Bool.and_eq_true] at h
  exact h.1

theorem isNormal_launcher (env : Env) (hroot : isNormal env.appData = true) :
    isNormal (INSTALL_ROOT env) = true ∧ isNormal (META_DIR env) = true := by
  simp only [INSTALL_ROOT, META_DIR, safeUserData, isNormal_append, hroot]
  constructor <;> decide

theorem gameDirOf_plain (env : Env) (id : String) (hroot : isNormal env.appData = true)
    (hid : plainName id = true) : gameDirOf env id = INSTALL_ROOT env ++ [id] :=
  pathJoin_plain _ _ _ (isNormal_launcher env hroot).1 (isSegment_of_plain id hid)

theorem tmpZipOf_plain (env : Env) (g : Game) (hroot : isNormal env.appData = true)
    (hid : plainName g.id = true) : tmpZipOf env g = META_DIR env ++ [g.id ++ ".zip"] :=
  pathJoin_plain _ _ _ (isNormal_launcher env hroot).2
    (isSegment_zip g.id (isSegment_of_plain g.id hid))

theorem endsWithSep_of_segment (win32 : Bool) (s : String) (h : isSegment s = true) :
    endsWithSep win32 s = false := by
  obtain ⟨_, _, _, hc⟩ := (isSegment_iff s).1 h
  unfold endsWithSep
  cases hl : s.data.getLast? with
  | none => rfl
  | some c => exact isSep_of_portable win32 c (hc c (List.mem_of_mem_getLast? hl))

/-- For a plain name the existence test sees the child of that name. -/
theorem existsJoined_plain (t : Tree) (win32 : Bool) (base : Path) (s : String)
    (h : isSegment s = true) :
    existsJoined t win32 base s = existsSync t (pathJoin win32 base s) := by
  simp [existsJoined, endsWithSep_of_segment win32 s h]

theorem existsJoined_of_stat_none (t : Tree) (win32 : Bool) (base : Path) (s : String)
    (h : stat t (pathJoin win32 base s) = none) : existsJoined t win32 base s = false := by
  unfold existsJoined
  split <;> simp [h, existsSync]

theorem existsJoined_true (t : Tree) (win32 : Bool) (base : Path) (s : String)
    (h : existsJoined t win32 base s = true) : existsSync t (pathJoin win32 base s) = true := by
  unfold existsJoined at h
  split at h
  · split at h
    · next c hc => simp [existsSync, hc]
    · simp at h
  · exact h

theorem gameDirExists_plain (env : Env) (t : Tree) (id : String) (hid : plainName id = true) :
    gameDirExists env t id = existsSync t (gameDirOf env id) :=
  existsJoined_plain t env.win32 (INSTALL_ROOT env) id (isSegment_of_plain id hid)


/-! ## The launcher's directories and the installed-games file -/

theorem ensureDirs_of_ready (env : Env) (t : Tree) (h : Ready env t) : ensureDirs env t = some t := by
  obtain ⟨h1, h2, h3⟩ := h
  simp [ensureDirs, h1, h2, h3]

/-- The three steps of `ensureDirs`. -/
theorem ensureDirs_steps (env : Env) (t t0 : Tree) (h : ensureDirs env t = some t0) :
    ∃ t1 t2,
      (if existsSync t (INSTALL_ROOT env) then some t else mkdirSync t (INSTALL_ROOT env)) = some t1 ∧
      (if existsSync t1 (META_DIR env) then some t1 else mkdirSync t1 (META_DIR env)) = some t2 ∧
      (if existsSync t2 (INSTALLED_FILE env) then some t2
        else writeFileSync t2 (INSTALLED_FILE env) (.json [])) = some t0 := by
  simp only [ensureDirs, Option.bind_eq_some] at h
  obtain ⟨t1, h1, t2, h2, h3⟩ := h
  exact ⟨t1, t2, h1, h2, h3⟩

theorem ensureDirs_ready (env : Env) (t t0 : Tree) (h : ensureDirs env t = some t0) :
    Ready env t0 := by
  obtain ⟨t1, t2, h1, h2, h3⟩ := ensureDirs_steps env t t0 h
  have e1 : existsSync t1 (INSTALL_ROOT env) = true := by
    split at h1
    · next hx => simp only [Option.some.injEq] at h1; subst h1; exact hx
    · rw [existsSync_eq_look, look_mkdirSync_self _ _ _ h1]; rfl
  have e2 : existsSync t2 (META_DIR env) = true := by
    split at h2
    · next hx => simp only [Option.some.injEq] at h2; subst h2; exact hx
    · rw [existsSync_eq_look, look_mkdirSync_self _ _ _ h2]; rfl
  have e1b : existsSync t2 (INSTALL_ROOT env) = true := by
    split at h2
    · simp only [Option.some.injEq] at h2; subst h2; exact e1
    · rw [existsSync_eq_look, look_mkdirSync _ _ _ _ h2, ← existsSync_eq_look]
      · exact e1
      · intro s hs; simp [META_DIR, INSTALL_ROOT, safeUserData] at hs
  split at h3
  · next hx => simp only [Option.some.injEq] at h3; subst h3; exact ⟨e1b, e2, hx⟩
  · refine ⟨?_, ?_, ?_⟩
    · rw [existsSync_eq_look, look_writeFileSync _ _ _ _ _ h3, ← existsSync_eq_look]
      · exact e1b
      · simp [INSTALLED_FILE, META_DIR, INSTALL_ROOT, safeUserData]
    · rw [existsSync_eq_look, look_writeFileSync _ _ _ _ _ h3, ← existsSync_eq_look]
      · exact e2
      · simp [INSTALLED_FILE, META_DIR, INSTALL_ROOT, safeUserData]
    · simp [existsSync, stat_writeFileSync_self _ _ _ _ h3]

/-- The installed-games file after `ensureDirs` is as before, or new and empty. -/
theorem ensureDirs_installed (env : Env) (t t0 : Tree) (h : ensureDirs env t = some t0) :
    look t0 (INSTALLED_FILE env) = look t (INSTALLED_FILE env) ∨
      (look t (INSTALLED_FILE env) = none ∧ stat t0 (INSTALLED_FILE env) = some (.file (.json []))) := by
  obtain ⟨t1, t2, h1, h2, h3⟩ := ensureDirs_steps env t t0 h
  have e1 : look t1 (INSTALLED_FILE env) = look t (INSTALLED_FILE env) := by
    split at h1
    · simp only [Option.some.injEq] at h1; subst h1; rfl
    · apply look_mkdirSync _ _ _ _ h1
      intro s hs; simp [INSTALLED_FILE, META_DIR, INSTALL_ROOT, safeUserData] at hs
  have e2 : look t2 (INSTALLED_FILE env) = look t (INSTALLED_FILE env) := by
    rw [← e1]
    split at h2
    · simp only [Option.some.injEq] at h2; subst h2; rfl
    · apply look_mkdirSync _ _ _ _ h2
      intro s hs; simp [INSTALLED_FILE, META_DIR, INSTALL_ROOT, safeUserData] at hs
  split at h3
  · simp only [Option.some.injEq] at h3; subst h3; exact Or.inl e2
  · next hx =>
    right
    refine ⟨?_, stat_writeFileSync_self _ _ _ _ h3⟩
    rw [← e2]
    rw [existsSync_eq_look] at hx
    cases hl : look t2 (INSTALLED_FILE env) with
    | none => rfl
    | some e => simp [hl] at hx

/-- The object read from the installed-games file depends only on what the file is. -/
theorem parseInstalled_congr (env : Env) (t u : Tree)
    (h : look t (INSTALLED_FILE env) = look u (INSTALLED_FILE env)) :
    parseInstalled env t = parseInstalled env u := by
  simp only [look] at h
  simp only [parseInstalled]
  cases ht : stat t (INSTALLED_FILE env) with
  | none =>
    cases hu : stat u (INSTALLED_FILE env) with
    | none => rfl
    | some e => simp [ht, hu] at h
  | some e =>
    cases hu : stat u (INSTALLED_FILE env) with
    | none => simp [ht, hu] at h
    | some e1 =>
      simp only [ht, hu, Option.map_some', Option.some.injEq] at h
      cases e <;> cases e1 <;> simp_all [Entry.shape]

theorem parseInstalled_of_none (env : Env) (t : Tree)
    (h : look t (INSTALLED_FILE env) = none) : parseInstalled env t = some [] := by
  simp only [look, Option.map_eq_none'] at h
  simp [parseInstalled, h]

theorem parseInstalled_of_stat (env : Env) (t : Tree) (m : Installed)
    (h : stat t (INSTALLED_FILE env) = some (.file (.json m))) :
    parseInstalled env t = some m := by
  simp [parseInstalled, h, jsonParse]

/-- The object that `readInstalled` returns is not changed by `ensureDirs`. -/
theorem parseInstalled_ensureDirs (env : Env) (t t0 : Tree) (h : ensureDirs env t = some t0) :
    parseInstalled env t0 = parseInstalled env t := by
  rcases ensureDirs_installed env t t0 h with h1 | ⟨h1, h2⟩
  · exact parseInstalled_congr env _ _ h1
  · rw [parseInstalled_of_none env t h1, parseInstalled_of_stat env t0 [] h2]

theorem readInstalled_eq (env : Env) (t t0 : Tree) (h : ensureDirs env t = some t0) :
    readInstalled env t = some (parseInstalled env t, t0) := by
  simp [readInstalled, h, parseInstalled_ensureDirs env t t0 h]

/-! ## The install pipeline and the installed-games file -/

theorem zipName_ne (id : String) : id ++ ".zip" ≠ "installed.json" := by
  intro h
  have h1 := congrArg (fun s : String => s.data.getLast?) h
  simp [String.data_append] at h1

theorem installedFile_ne_tmpZip (env : Env) (g : Game) (s : Path)
    (hroot : isNormal env.appData = true) (hid : plainName g.id = true) :
    INSTALLED_FILE env ≠ tmpZipOf env g ++ s := by
  rw [tmpZipOf_plain env g hroot hid]
  intro h
  simp only [INSTALLED_FILE, List.append_assoc, List.append_cancel_left_eq, List.cons_append,
    List.nil_append, List.cons.injEq] at h
  exact zipName_ne g.id h.1.symm

theorem look_rm_gameDir (env : Env) (t : Tree) (id : String)
    (hroot : isNormal env.appData = true) (hid : plainName id = true) :
    look (rmSync t (gameDirOf env id)) (INSTALLED_FILE env) = look t (INSTALLED_FILE env) := by
  rw [gameDirOf_plain env id hroot hid]
  apply look_rmSync
  intro s hs
  simp [INSTALLED_FILE, META_DIR, INSTALL_ROOT, safeUserData] at hs

theorem look_rm_tmpZip (env : Env) (t : Tree) (g : Game)
    (hroot : isNormal env.appData = true) (hid : plainName g.id = true) :
    look (rmSync t (tmpZipOf env g)) (INSTALLED_FILE env) = look t (INSTALLED_FILE env) :=
  look_rmSync _ _ _ (fun s => installedFile_ne_tmpZip env g s hroot hid)

theorem look_download (env : Env) (t : Tree) (url : String) (g : Game)
    (hroot : isNormal env.appData = true) (hid : plainName g.id = true) :
    look (downloadToFile env t url (tmpZipOf env g)).1 (INSTALLED_FILE env) =
      look t (INSTALLED_FILE env) := by
  unfold downloadToFile
  split
  · rfl
  · split
    · rfl
    · next t1 hw =>
      apply look_writeFileSync _ _ _ _ _ hw
      simpa using installedFile_ne_tmpZip env g [] hroot hid

theorem look_verify (env : Env) (t : Tree) (g : Game)
    (hroot : isNormal env.appData = true) (hid : plainName g.id = true) :
    look (verifyStage env t g).1 (INSTALLED_FILE env) = look t (INSTALLED_FILE env) := by
  unfold verifyStage
  split
  · split
    · rfl
    · split
      · exact look_rm_tmpZip env t g hroot hid
      · rfl
  · rfl

theorem look_extractEntryTo (env : Env) (t t1 : Tree) (entry : ZipEntry) (id : String)
    (hroot : isNormal env.appData = true) (hid : plainName id = true)
    (h : extractEntryTo t entry (gameDirOf env id) = some t1) :
    look t1 (INSTALLED_FILE env) = look t (INSTALLED_FILE env) := by
  rw [gameDirOf_plain env id hroot hid] at h
  simp only [extractEntryTo, Option.bind_eq_some] at h
  obtain ⟨t2, h2, h3⟩ := h
  rw [look_writeFileSync _ _ _ _ _ h3, look_mkdirSync _ _ _ _ h2]
  · intro s hs
    have hd : dirname (INSTALL_ROOT env ++ [id] ++ entry.entryName) =
        env.appData ++ ("VyltrexLauncher" :: "Games" :: dirname (id :: entry.entryName)) := by
      simp only [dirname, INSTALL_ROOT, safeUserData, List.append_assoc, List.cons_append,
        List.nil_append]
      rw [List.dropLast_append_of_ne_nil _ (by simp)]
      simp
    rw [hd] at hs
    simp [INSTALLED_FILE, META_DIR, safeUserData] at hs
  · simp [INSTALLED_FILE, META_DIR, INSTALL_ROOT, safeUserData]

theorem look_extractLoop (env : Env) (id : String) (total : Nat) (entries : List ZipEntry)
    (i : Nat) (t : Tree) (sent : List Percent)
    (hroot : isNormal env.appData = true) (hid : plainName id = true) :
    look (extractLoop (gameDirOf env id) total entries i t sent).1 (INSTALLED_FILE env) =
      look t (INSTALLED_FILE env) := by
  induction entries generalizing i t sent with
  | nil => rfl
  | cons entry rest ih =>
    rw [extractLoop]
    split
    · rfl
    · next t1 h1 => rw [ih, look_extractEntryTo env _ _ _ _ hroot hid h1]

theorem look_extract (env : Env) (t : Tree) (zipPath : Path) (id : String)
    (hroot : isNormal env.appData = true) (hid : plainName id = true) :
    look (extractZipWithProgress env t zipPath (gameDirOf env id)).1 (INSTALLED_FILE env) =
      look t (INSTALLED_FILE env) := by
  unfold extractZipWithProgress
  split
  · split
    · rfl
    · exact look_extractLoop env _ _ _ _ _ _ hroot hid
  · rfl

theorem look_prepare (env : Env) (t0 t2 : Tree) (id : String)
    (hroot : isNormal env.appData = true) (hid : plainName id = true)
    (h2 : mkdirSync (if existsSync t0 (gameDirOf env id) then rmSync t0 (gameDirOf env id) else t0)
      (gameDirOf env id) = some t2) :
    look t2 (INSTALLED_FILE env) =
      look (if existsSync t0 (gameDirOf env id) then rmSync t0 (gameDirOf env id) else t0)
        (INSTALLED_FILE env) := by
  apply look_mkdirSync _ _ _ _ h2
  rw [gameDirOf_plain env id hroot hid]
  intro s hs
  simp [INSTALLED_FILE, META_DIR, INSTALL_ROOT, safeUserData] at hs

theorem look_clean (env : Env) (t0 : Tree) (id : String)
    (hroot : isNormal env.appData = true) (hid : plainName id = true) :
    look (if existsSync t0 (gameDirOf env id) then rmSync t0 (gameDirOf env id) else t0)
        (INSTALLED_FILE env) = look t0 (INSTALLED_FILE env) := by
  split
  · exact look_rm_gameDir env t0 id hroot hid
  · rfl

/-- A failed `installGame` leaves the installed-games object as it was. -/
theorem install_failure_parse (env : Env) (t : Tree) (g : Game) (e : Err)
    (hroot : isNormal env.appData = true) (hid : plainName g.id = true)
    (h : (installGame env t g).result = .error e) :
    parseInstalled env (installGame env t g).fs = parseInstalled env t := by
  cases h0 : ensureDirs env t with
  | none => simp [installGame, h0]
  | some t0 =>
  have hx := gameDirExists_plain env t0 g.id hid
  have p0 := parseInstalled_ensureDirs env t t0 h0
  have p1 := parseInstalled_congr env _ _ (look_clean env t0 g.id hroot hid)
  cases h2 : mkdirSync
      (if existsSync t0 (gameDirOf env g.id) then rmSync t0 (gameDirOf env g.id) else t0)
      (gameDirOf env g.id) with
  | none => simp only [installGame, h0, hx, h2]; exact p1.trans p0
  | some t2 =>
  have p2 := parseInstalled_congr env _ _ (look_prepare env t0 t2 g.id hroot hid h2)
  have p3 := parseInstalled_congr env _ _ (look_download env t2 g.download g hroot hid)
  rcases h3 : downloadToFile env t2 g.download (tmpZipOf env g) with ⟨t3, ps, _ | e3⟩
  swap
  · rw [h3] at p3
    simp only [installGame, h0, hx, h2, h3]
    exact p3.trans (p2.trans (p1.trans p0))
  rw [h3] at p3
  have p4 := parseInstalled_congr env _ _ (look_verify env t3 g hroot hid)
  rcases h4 : verifyStage env t3 g with ⟨t4, b, _ | e4⟩
  swap
  · rw [h4] at p4
    simp only [installGame, h0, hx, h2, h3, h4]
    exact p4.trans (p3.trans (p2.trans (p1.trans p0)))
  rw [h4] at p4
  have p5 := parseInstalled_congr env _ _ (look_extract env t4 (tmpZipOf env g) g.id hroot hid)
  rcases h5 : extractZipWithProgress env t4 (tmpZipOf env g) (gameDirOf env g.id) with
    ⟨t5, ps2, _ | e5⟩
  swap
  · rw [h5] at p5
    simp only [installGame, h0, hx, h2, h3, h4, h5]
    exact p5.trans (p4.trans (p3.trans (p2.trans (p1.trans p0))))
  rw [h5] at p5
  have p6 := parseInstalled_congr env _ _ (look_rm_tmpZip env t5 g hroot hid)
  have p := p6.trans (p5.trans (p4.trans (p3.trans (p2.trans (p1.trans p0)))))
  rcases h6 : locateStage env (rmSync t5 (tmpZipOf env g)) g with e6 | ⟨exePath, baseDir⟩
  · simp only [installGame, h0, hx, h2, h3, h4, h5, h6]; exact p
  rcases h7 : commitStage env (rmSync t5 (tmpZipOf env g)) g exePath baseDir with e7 | t7
  · simp only [installGame, h0, hx, h2, h3, h4, h5, h6, h7]; exact p
  · simp [installGame, h0, hx, h2, h3, h4, h5, h6, h7] at h


/-! ## Searching the extracted tree -/

theorem stat_append (t c : Tree) (p s : Path) (h : stat t p = some (.dir c)) :
    stat t (p ++ s) = stat c s := by
  induction p generalizing t with
  | nil => simp [stat] at h; subst h; rfl
  | cons n ns ih =>
    rw [stat_cons] at h
    rw [List.cons_append, stat_cons]
    cases hf : t.find n with
    | none => simp [hf] at h
    | some e =>
      cases e with
      | file d1 => simp only [hf] at h; split at h <;> simp at h
      | special => simp only [hf] at h; split at h <;> simp at h
      | dir c1 => simp only [hf] at h ⊢; exact ih c1 h

theorem stat_append_dir (t : Tree) (p s : Path) (e : Entry) (hs : s ≠ [])
    (h : stat t (p ++ s) = some e) : ∃ c, stat t p = some (.dir c) := by
  induction p generalizing t with
  | nil => exact ⟨t, rfl⟩
  | cons n ns ih =>
    rw [List.cons_append, stat_cons] at h
    rw [stat_cons]
    have hne : ns ++ s ≠ [] := by simp [hs]
    cases hf : t.find n with
    | none => simp [hf] at h
    | some e1 =>
      cases e1 with
      | file d1 => simp [hf, hne] at h
      | special => simp [hf, hne] at h
      | dir c1 => simp only [hf] at h ⊢; exact ih c1 h

theorem stat_singleton (c : Tree) (x : String) : stat c [x] = c.find x := by
  rw [stat_cons]
  cases hf : c.find x with
  | none => rfl
  | some e => cases e <;> simp [stat]

theorem wellFormed_find (c c1 : Tree) (x : String) (hwf : wellFormed c = true)
    (h : c.find x = some (.dir c1)) : wellFormed c1 = true := by
  induction c with
  | nil => simp [Tree.find] at h
  | file n d r ih =>
    simp only [wellFormed, Bool.and_eq_true] at hwf
    by_cases hn : n = x
    · simp [Tree.find, hn] at h
    · simp only [Tree.find, hn, if_false] at h; exact ih hwf.2 h
  | special n r ih =>
    simp only [wellFormed, Bool.and_eq_true] at hwf
    by_cases hn : n = x
    · simp [Tree.find, hn] at h
    · simp only [Tree.find, hn, if_false] at h; exact ih hwf.2 h
  | dir n c2 r _ ih =>
    simp only [wellFormed, Bool.and_eq_true] at hwf
    by_cases hn : n = x
    · simp only [Tree.find, hn, if_true, Option.some.injEq, Entry.dir.injEq] at h
      subst h; exact hwf.1.2
    · simp only [Tree.find, hn, if_false] at h; exact ih hwf.2 h

theorem wellFormed_stat (t c : Tree) (p : Path) (hwf : wellFormed t = true)
    (h : stat t p = some (.dir c)) : wellFormed c = true := by
  induction p generalizing t with
  | nil => simp [stat] at h; subst h; exact hwf
  | cons n ns ih =>
    rw [stat_cons] at h
    cases hf : t.find n with
    | none => simp [hf] at h
    | some e =>
      cases e with
      | file d1 => simp only [hf] at h; split at h <;> simp at h
      | special => simp only [hf] at h; split at h <;> simp at h
      | dir c1 => simp only [hf] at h; exact ih c1 (wellFormed_find t c1 n hwf hf) h

theorem find_isSome_of_dirent (c : Tree) (e : Dirent) (he : e ∈ dirents c) :
    (c.find e.name).isSome = true := by
  induction c with
  | nil => simp [dirents] at he
  | file n d r ih =>
    simp only [dirents, List.mem_cons] at he
    rcases he with rfl | he
    · simp [Tree.find]
    · simp only [Tree.find]; split
      · rfl
      · exact ih he
  | special n r ih =>
    simp only [dirents, List.mem_cons] at he
    rcases he with rfl | he
    · simp [Tree.find]
    · simp only [Tree.find]; split
      · rfl
      · exact ih he
  | dir n c2 r _ ih =>
    simp only [dirents, List.mem_cons] at he
    rcases he with rfl | he
    · simp [Tree.find]
    · simp only [Tree.find]; split
      · rfl
      · exact ih he

/-- In a well-formed listing a `Dirent` tells what its name resolves to. -/
theorem find_of_dirent (c : Tree) (e : Dirent) (hwf : wellFormed c = true)
    (he : e ∈ dirents c) :
    (e.isFile = true → ∃ d, c.find e.name = some (.file d)) ∧
    (e.isDirectory = true → ∃ c1, c.find e.name = some (.dir c1)) := by
  induction c with
  | nil => simp [dirents] at he
  | file n d r ih =>
    simp only [wellFormed, Bool.and_eq_true, Option.isNone_iff_eq_none] at hwf
    simp only [dirents, List.mem_cons] at he
    rcases he with rfl | he
    · simp [Tree.find]
    · have hn : n ≠ e.name := by
        intro hn
        have := find_isSome_of_dirent r e he
        rw [← hn, hwf.1] at this; simp at this
      simpa [Tree.find, hn] using ih hwf.2 he
  | special n r ih =>
    simp only [wellFormed, Bool.and_eq_true, Option.isNone_iff_eq_none] at hwf
    simp only [dirents, List.mem_cons] at he
    rcases he with rfl | he
    · simp [Tree.find]
    · have hn : n ≠ e.name := by
        intro hn
        have := find_isSome_of_dirent r e he
        rw [← hn, hwf.1] at this; simp at this
      simpa [Tree.find, hn] using ih hwf.2 he
  | dir n c2 r _ ih =>
    simp only [wellFormed, Bool.and_eq_true, Option.isNone_iff_eq_none] at hwf
    simp only [dirents, List.mem_cons] at he
    rcases he with rfl | he
    · simp [Tree.find]
    · have hn : n ≠ e.name := by
        intro hn
        have := find_isSome_of_dirent r e he
        rw [← hn, hwf.1.1] at this; simp at this
      simpa [Tree.find, hn] using ih hwf.2 he

/-- What a name resolves to is listed. -/
theorem dirent_of_find_file (c : Tree) (x : String) (d : Data)
    (h : c.find x = some (.file d)) : (⟨x, false, true⟩ : Dirent) ∈ dirents c := by
  induction c with
  | nil => simp [Tree.find] at h
  | file n d1 r ih =>
    by_cases hn : n = x
    · simp [dirents, hn]
    · simp only [Tree.find, hn, if_false] at h; simp [dirents, ih h]
  | special n r ih =>
    by_cases hn : n = x
    · simp [Tree.find, hn] at h
    · simp only [Tree.find, hn, if_false] at h; simp [dirents, ih h]
  | dir n c2 r _ ih =>
    by_cases hn : n = x
    · simp [Tree.find, hn] at h
    · simp only [Tree.find, hn, if_false] at h; simp [dirents, ih h]

theorem dirent_of_find_dir (c c1 : Tree) (x : String)
    (h : c.find x = some (.dir c1)) : (⟨x, true, false⟩ : Dirent) ∈ dirents c := by
  induction c with
  | nil => simp [Tree.find] at h
  | file n d1 r ih =>
    by_cases hn : n = x
    · simp [Tree.find, hn] at h
    · simp only [Tree.find, hn, if_false] at h; simp [dirents, ih h]
  | special n r ih =>
    by_cases hn : n = x
    · simp [Tree.find, hn] at h
    · simp only [Tree.find, hn, if_false] at h; simp [dirents, ih h]
  | dir n c2 r _ ih =>
    by_cases hn : n = x
    · simp [dirents, hn]
    · simp only [Tree.find, hn, if_false] at h; simp [dirents, ih h]


theorem scanEntries_inl (lower : String → String) (cur : Path) (exeName : String) (es : List Dirent) (st : List Path)
    (p : Path) (h : scanEntries lower cur exeName es st = .inl p) :
    ∃ e ∈ es, e.isFile = true ∧ lower e.name = lower exeName ∧
      p = cur ++ [e.name] := by
  induction es generalizing st with
  | nil => simp [scanEntries] at h
  | cons e es ih =>
    simp only [scanEntries] at h
    split at h
    · obtain ⟨e1, he1, h1⟩ := ih _ h
      exact ⟨e1, List.mem_cons_of_mem _ he1, h1⟩
    · split at h
      · next hm =>
        simp only [Bool.and_eq_true, decide_eq_true_eq] at hm
        simp only [Sum.inl.injEq] at h
        exact ⟨e, List.mem_cons_self _ _, hm.1, hm.2, h.symm⟩
      · obtain ⟨e1, he1, h1⟩ := ih _ h
        exact ⟨e1, List.mem_cons_of_mem _ he1, h1⟩

theorem scanEntries_inr (lower : String → String) (cur : Path) (exeName : String) (es : List Dirent) (st st1 : List Path)
    (h : scanEntries lower cur exeName es st = .inr st1) :
    st1 = (pushed cur es).reverse ++ st ∧
      ∀ e ∈ es, e.isDirectory = false → e.isFile = true →
        lower e.name ≠ lower exeName := by
  induction es generalizing st with
  | nil =>
    simp only [scanEntries, Sum.inr.injEq] at h
    simp [pushed, h]
  | cons e es ih =>
    simp only [scanEntries] at h
    split at h
    · next hd =>
      obtain ⟨h1, h2⟩ := ih _ h
      refine ⟨?_, ?_⟩
      · simp [h1, pushed, hd]
      · intro e1 he1 hd1 hf1
        rcases List.mem_cons.1 he1 with rfl | he1
        · simp [hd] at hd1
        · exact h2 e1 he1 hd1 hf1
    · next hd =>
      split at h
      · simp at h
      · next hm =>
        obtain ⟨h1, h2⟩ := ih _ h
        refine ⟨?_, ?_⟩
        · simp [h1, pushed, hd]
        · intro e1 he1 hd1 hf1
          rcases List.mem_cons.1 he1 with rfl | he1
          · intro hname; apply hm; simp [hf1, hname]
          · exact h2 e1 he1 hd1 hf1

theorem readdirSync_some (t : Tree) (p : Path) (es : List Dirent)
    (h : readdirSync t p = some es) : ∃ c, stat t p = some (.dir c) ∧ es = dirents c := by
  unfold readdirSync at h
  split at h
  · next c hc => exact ⟨c, hc, by simpa using h.symm⟩
  · simp at h

theorem readdirSync_of_dir (t c : Tree) (p : Path) (h : stat t p = some (.dir c)) :
    readdirSync t p = some (dirents c) := by
  simp [readdirSync, h]

theorem basename_append_singleton (p : Path) (x : String) : basename (p ++ [x]) = x := by
  simp [basename, List.getLastD_eq_getLast?]

/-- A path that `findLoop` returns is a matching regular file below a stacked directory. -/
theorem findLoop_sound (lower : String → String) (t : Tree) (exeName : String) (root : Path) (hwf : wellFormed t = true)
    (fuel : Nat) (stack : List Path) (p : Path)
    (hst : ∀ q ∈ stack, ∃ rel, q = root ++ rel)
    (h : findLoop lower t exeName fuel stack = some (some p)) : IsExeAt lower t root exeName p := by
  induction fuel generalizing stack with
  | zero =>
    cases stack with
    | nil => simp [findLoop] at h
    | cons cur rest => simp [findLoop] at h
  | succ fuel ih =>
    cases stack with
    | nil => simp [findLoop] at h
    | cons cur rest =>
      rw [findLoop] at h
      split at h
      · exact ih rest (fun q hq => hst q (List.mem_cons_of_mem _ hq)) h
      · next es hes =>
        obtain ⟨c, hc, rfl⟩ := readdirSync_some t cur es hes
        obtain ⟨rel, hrel⟩ := hst cur (List.mem_cons_self _ _)
        split at h
        · next p1 hp1 =>
          simp only [Option.some.injEq] at h
          subst h
          obtain ⟨e, he, hfile, hname, rfl⟩ := scanEntries_inl lower _ _ _ _ _ hp1
          obtain ⟨d, hd⟩ := (find_of_dirent c e (wellFormed_stat t c cur hwf hc) he).1 hfile
          refine ⟨rel ++ [e.name], d, by simp, by simp [hrel], ?_, ?_⟩
          · rw [stat_append t c cur _ hc, stat_singleton, hd]
          · rw [basename_append_singleton]; exact hname
        · next st1 hst1 =>
          obtain ⟨h1, _⟩ := scanEntries_inr lower _ _ _ _ _ hst1
          apply ih st1 _ h
          intro q hq
          rw [h1] at hq
          rcases List.mem_append.1 hq with hq | hq
          · simp only [pushed, List.mem_reverse, List.mem_map, List.mem_filter] at hq
            obtain ⟨e, _, rfl⟩ := hq
            exact ⟨rel ++ [e.name], by simp [hrel]⟩
          · exact hst q (List.mem_cons_of_mem _ hq)


/-- When `findLoop` returns `null`, no stacked directory has a matching file below it. -/
theorem findLoop_complete (lower : String → String) (t : Tree) (exeName : String) (fuel : Nat) (stack : List Path)
    (h : findLoop lower t exeName fuel stack = some none) :
    ∀ cur ∈ stack, ¬ HasExe lower t cur exeName := by
  induction fuel generalizing stack with
  | zero =>
    cases stack with
    | nil => simp
    | cons cur rest => simp [findLoop] at h
  | succ fuel ih =>
    cases stack with
    | nil => simp
    | cons cur rest =>
      rw [findLoop] at h
      intro q hq
      split at h
      · next hnone =>
        rcases List.mem_cons.1 hq with rfl | hq
        · rintro ⟨rel, d, hrel, hstat, _⟩
          obtain ⟨c, hc⟩ := stat_append_dir t q rel _ hrel hstat
          simp [readdirSync, hc] at hnone
        · exact ih rest h q hq
      · next es hes =>
        obtain ⟨c, hc, rfl⟩ := readdirSync_some t cur es hes
        split at h
        · simp at h
        · next st1 hst1 =>
          obtain ⟨h1, h2⟩ := scanEntries_inr lower _ _ _ _ _ hst1
          have ih1 := ih st1 h
          rcases List.mem_cons.1 hq with rfl | hq
          · rintro ⟨rel, d, hrel, hstat, hname⟩
            rw [stat_append t c q rel hc] at hstat
            cases rel with
            | nil => exact hrel rfl
            | cons x rel1 =>
              rw [stat_cons] at hstat
              cases hf : c.find x with
              | none => simp [hf] at hstat
              | some e =>
                cases e with
                | special => simp only [hf] at hstat; split at hstat <;> simp at hstat
                | file d1 =>
                  simp only [hf] at hstat
                  split at hstat
                  · next hnil =>
                    subst hnil
                    have hmem := dirent_of_find_file c x d1 hf
                    apply h2 _ hmem rfl rfl
                    rw [← hname]
                    rw [show q ++ [x] = q ++ [x] from rfl, basename_append_singleton]
                  · simp at hstat
                | dir c1 =>
                  simp only [hf] at hstat
                  have hmem := dirent_of_find_dir c c1 x hf
                  have hpush : q ++ [x] ∈ st1 := by
                    rw [h1]
                    apply List.mem_append_left
                    simp only [pushed, List.mem_reverse, List.mem_map, List.mem_filter]
                    exact ⟨_, ⟨hmem, rfl⟩, rfl⟩
                  have hc1 : stat t (q ++ [x]) = some (.dir c1) := by
                    rw [stat_append t c q _ hc, stat_singleton, hf]
                  have hne : rel1 ≠ [] := by
                    intro hnil; subst hnil; simp [stat] at hstat
                  apply ih1 _ hpush
                  refine ⟨rel1, d, hne, ?_, ?_⟩
                  · rw [stat_append t c1 _ rel1 hc1]; exact hstat
                  · simpa using hname
          · apply ih1 q
            rw [h1]
            exact List.mem_append_right _ hq


theorem dirCost_pos (c : Tree) : 1 ≤ (dirCost c).2 := by
  induction c with
  | nil => simp [dirCost]
  | file n d r ih => simpa [dirCost] using ih
  | special n r ih => simpa [dirCost] using ih
  | dir n c1 r _ ih => simp only [dirCost]; exact le_trans ih (le_max_left _ _)

theorem visitCost_le_of_find (c c1 : Tree) (x : String) (h : c.find x = some (.dir c1)) :
    visitCost c1 ≤ (dirCost c).2 := by
  induction c with
  | nil => simp [Tree.find] at h
  | file n d r ih =>
    by_cases hn : n = x
    · simp [Tree.find, hn] at h
    · simp only [Tree.find, hn, if_false] at h; simpa [dirCost] using ih h
  | special n r ih =>
    by_cases hn : n = x
    · simp [Tree.find, hn] at h
    · simp only [Tree.find, hn, if_false] at h; simpa [dirCost] using ih h
  | dir n c2 r _ ih =>
    by_cases hn : n = x
    · simp only [Tree.find, hn, if_true, Option.some.injEq, Entry.dir.injEq] at h
      subst h
      simp only [dirCost, visitCost]
      exact le_max_right _ _
    · simp only [Tree.find, hn, if_false] at h
      simp only [dirCost]
      exact le_trans (ih h) (le_max_left _ _)

theorem pushed_length (cur : Path) (c : Tree) :
    (pushed cur (dirents c)).length = (dirCost c).1 := by
  induction c with
  | nil => simp [pushed, dirents, dirCost]
  | file n d r ih => simpa [pushed, dirents, dirCost] using ih
  | special n r ih => simpa [pushed, dirents, dirCost] using ih
  | dir n c1 r _ ih => simpa [pushed, dirents, dirCost] using ih

theorem visitCostAt_pos (t : Tree) (p : Path) : 1 ≤ visitCostAt t p := by
  unfold visitCostAt
  split
  · simp [visitCost]
  · exact le_refl 1

theorem visitCostAt_child (t c : Tree) (cur : Path) (x : String)
    (hc : stat t cur = some (.dir c)) : visitCostAt t (cur ++ [x]) ≤ (dirCost c).2 := by
  unfold visitCostAt
  rw [stat_append t c cur _ hc, stat_singleton]
  split
  · next c1 h1 => exact visitCost_le_of_find c c1 x h1
  · exact dirCost_pos c

theorem sum_map_le (f : Path → Nat) (m : Nat) (l : List Path) (h : ∀ q ∈ l, f q ≤ m) :
    (l.map f).sum ≤ l.length * m := by
  induction l with
  | nil => simp
  | cons a l ih =>
    have h1 := h a (List.mem_cons_self _ _)
    have h2 := ih (fun q hq => h q (List.mem_cons_of_mem _ hq))
    simp only [List.map_cons, List.sum_cons, List.length_cons]
    rw [Nat.succ_mul]
    omega

/-- With fuel for every stacked directory, `findLoop` does not run out of fuel. -/
theorem findLoop_fuel (lower : String → String) (t : Tree) (exeName : String) (fuel : Nat) (stack : List Path)
    (h : (stack.map (visitCostAt t)).sum ≤ fuel) :
    ∃ r, findLoop lower t exeName fuel stack = some r := by
  induction fuel generalizing stack with
  | zero =>
    cases stack with
    | nil => exact ⟨none, rfl⟩
    | cons cur rest =>
      have := visitCostAt_pos t cur
      simp only [List.map_cons, List.sum_cons] at h
      omega
  | succ fuel ih =>
    cases stack with
    | nil => exact ⟨none, rfl⟩
    | cons cur rest =>
      simp only [List.map_cons, List.sum_cons] at h
      rw [findLoop]
      split
      · have := visitCostAt_pos t cur
        exact ih rest (by omega)
      · next es hes =>
        obtain ⟨c, hc, rfl⟩ := readdirSync_some t cur es hes
        split
        · exact ⟨_, rfl⟩
        · next st1 hst1 =>
          obtain ⟨h1, _⟩ := scanEntries_inr lower _ _ _ _ _ hst1
          apply ih st1
          have hcost : visitCostAt t cur = 1 + (dirCost c).1 * (dirCost c).2 := by
            simp [visitCostAt, hc, visitCost]
          have hp : ((pushed cur (dirents c)).map (visitCostAt t)).sum ≤
              (dirCost c).1 * (dirCost c).2 := by
            rw [← pushed_length cur c]
            apply sum_map_le
            intro q hq
            simp only [pushed, List.mem_map, List.mem_filter] at hq
            obtain ⟨e, _, rfl⟩ := hq
            exact visitCostAt_child t c cur e.name hc
          rw [h1, List.map_append, List.sum_append, List.map_reverse, List.sum_reverse]
          omega

/-- More fuel does not change a result. -/
theorem findLoop_mono (lower : String → String) (t : Tree) (exeName : String) (fuel k : Nat) (stack : List Path)
    (r : Option Path) (h : findLoop lower t exeName fuel stack = some r) :
    findLoop lower t exeName (fuel + k) stack = some r := by
  induction fuel generalizing stack with
  | zero =>
    cases stack with
    | nil =>
      cases k <;> simpa [findLoop] using h
    | cons cur rest => simp [findLoop] at h
  | succ fuel ih =>
    cases stack with
    | nil => simpa [findLoop] using h
    | cons cur rest =>
      have hk : fuel + 1 + k = (fuel + k) + 1 := by omega
      rw [hk]
      cases hes : readdirSync t cur with
      | none =>
        simp only [findLoop, hes] at h ⊢
        exact ih rest h
      | some es =>
        cases hsc : scanEntries lower cur exeName es rest with
        | inl p =>
          simp only [findLoop, hes, hsc] at h ⊢
          exact h
        | inr st1 =>
          simp only [findLoop, hes, hsc] at h ⊢
          exact ih st1 h

/-- Past the bound `visitCostAt`, `findLoop` returns what `findExeRecursive` returns. -/
theorem findLoop_eq_findExeRecursive (lower : String → String) (t : Tree) (dir : Path) (exeName : String) (fuel : Nat)
    (h : visitCostAt t dir ≤ fuel) :
    findLoop lower t exeName fuel [dir] = some (findExeRecursive lower t dir exeName) := by
  obtain ⟨r, hr⟩ := findLoop_fuel lower t exeName (visitCostAt t dir) [dir] (by simp)
  obtain ⟨k, rfl⟩ := Nat.exists_eq_add_of_le h
  rw [findLoop_mono lower t exeName _ k [dir] r hr]
  simp [findExeRecursive, hr]

/-! ## The installed-games object -/

theorem lookup_setOwn (m : Installed) (k : String) (v : InstallRecord) :
    (setOwn m k v).lookup k = some v := by
  induction m with
  | nil => simp [setOwn, List.lookup]
  | cons kv rest ih =>
    obtain ⟨k1, w⟩ := kv
    by_cases hk : k1 = k
    · subst hk; simp [setOwn, List.lookup]
    · have hk2 : (k == k1) = false := by simp [Ne.symm hk]
      simp only [setOwn, hk, if_false, List.lookup, hk2]
      exact ih

/-- After `obj[key] = value` the key reads as the value, unless the key is `__proto__`. -/
theorem getKey_setKey (m : Installed) (k : String) (v : InstallRecord) (hk : k ≠ "__proto__") :
    getKey (setKey m k v) k = .record v := by
  have h : setKey m k v = setOwn m k v := by simp [setKey, hk]
  simp [h, getKey, lookup_setOwn]

theorem lookup_deleteKey (m : Installed) (k : String) : (deleteKey m k).lookup k = none := by
  induction m with
  | nil => simp [deleteKey, List.lookup]
  | cons kv rest ih =>
    obtain ⟨k1, w⟩ := kv
    by_cases hk : k1 = k
    · subst hk; simpa [deleteKey] using ih
    · have hk2 : (k == k1) = false := by simp [Ne.symm hk]
      simp only [deleteKey] at ih
      simp only [deleteKey, List.filter, hk, List.lookup, hk2, ne_eq, not_false_eq_true,
        decide_True]
      exact ih

theorem deleteKey_deleteKey (m : Installed) (k : String) :
    deleteKey (deleteKey m k) k = deleteKey m k := by
  simp [deleteKey, List.filter_filter]

/-- A path that is not a directory can be written. -/
theorem writeFileSync_of_stat (t : Tree) (p : Path) (e : Entry) (d : Data)
    (h : stat t p = some e) (hd : ∀ c, e ≠ .dir c) : ∃ t1, writeFileSync t p d = some t1 := by
  induction p generalizing t with
  | nil => simp [stat] at h; exact absurd h.symm (hd t)
  | cons n ns ih =>
    rw [stat_cons] at h
    cases ns with
    | nil =>
      rw [writeFileSync]
      cases hf : t.find n with
      | none => exact ⟨_, rfl⟩
      | some e1 =>
        cases e1 with
        | file d1 => exact ⟨_, rfl⟩
        | special => exact ⟨_, rfl⟩
        | dir c => simp [hf, stat] at h; exact absurd h.symm (hd c)
    | cons m ms =>
      rw [writeFileSync]
      cases hf : t.find n with
      | none => simp [hf] at h
      | some e1 =>
        cases e1 with
        | file d1 => simp [hf] at h
        | special => simp [hf] at h
        | dir c =>
          simp only [hf] at h
          obtain ⟨c1, hc1⟩ := ih c h
          exact ⟨t.setEntry n (.dir c1), by simp [hc1]⟩

/-- Writing a file the data it already holds changes nothing. -/
theorem writeFileSync_same (t : Tree) (p : Path) (d : Data)
    (h : stat t p = some (.file d)) : writeFileSync t p d = some t := by
  induction p generalizing t with
  | nil => simp [stat] at h
  | cons n ns ih =>
    rw [stat_cons] at h
    cases ns with
    | nil =>
      rw [writeFileSync]
      cases hf : t.find n with
      | none => simp [hf] at h
      | some e1 =>
        cases e1 with
        | file d1 =>
          simp only [hf, if_true, Option.some.injEq, Entry.file.injEq] at h
          subst h
          simp [Tree.setEntry_find t n _ hf]
        | special => simp [hf] at h
        | dir c => simp [hf, stat] at h
    | cons m ms =>
      rw [writeFileSync]
      cases hf : t.find n with
      | none => simp [hf] at h
      | some e1 =>
        cases e1 with
        | file d1 => simp [hf] at h
        | special => simp [hf] at h
        | dir c =>
          simp only [hf] at h
          simp [ih c h, Tree.setEntry_find t n _ hf]

theorem parseInstalled_writeInstalled (env : Env) (t t1 : Tree) (m : Installed)
    (h : writeInstalled env t m = some t1) : parseInstalled env t1 = some m := by
  simp only [writeInstalled, Option.bind_eq_some] at h
  obtain ⟨t0, _, h1⟩ := h
  exact parseInstalled_of_stat env _ _ (stat_writeFileSync_self _ _ _ _ h1)

/-- The steps of a commit of `installGame` that does not throw. -/
theorem commitStage_ok (env : Env) (t t1 : Tree) (g : Game) (exePath baseDir : Path)
    (h : commitStage env t g exePath baseDir = .ok t1) :
    ∃ m t0, ensureDirs env t = some t0 ∧ parseInstalled env t = some m ∧
      writeInstalled env t0 (setKey m g.id
        ⟨gameDirOf env g.id, baseDir, basename exePath, env.now⟩) = some t1 := by
  unfold commitStage at h
  cases h0 : ensureDirs env t with
  | none => simp [readInstalled, h0] at h
  | some t0 =>
    rw [readInstalled_eq env t t0 h0] at h
    cases hp : parseInstalled env t with
    | none => simp [hp] at h
    | some m =>
      simp only [hp] at h
      split at h
      · simp at h
      · next t2 hw =>
        simp only [Except.ok.injEq] at h
        subst h
        exact ⟨m, t0, rfl, rfl, hw⟩

/-- The record that the commit of `installGame` leaves in the installed-games
file, for an id other than `__proto__`. -/
theorem commitStage_record (env : Env) (t t1 : Tree) (g : Game) (exePath baseDir : Path)
    (hid : g.id ≠ "__proto__")
    (h : commitStage env t g exePath baseDir = .ok t1) :
    ∃ m, parseInstalled env t1 = some m ∧
      getKey m g.id = .record ⟨gameDirOf env g.id, baseDir, basename exePath, env.now⟩ := by
  obtain ⟨m, t0, _, _, hw⟩ := commitStage_ok env t t1 g exePath baseDir h
  exact ⟨_, parseInstalled_writeInstalled env _ _ _ hw, getKey_setKey _ _ _ hid⟩

/-- A successful `installGame` located the executable on the tree that extraction
left and committed that to the installed-games file. -/
theorem install_success (env : Env) (t : Tree) (g : Game) (b : Bool)
    (h : (installGame env t g).result = .ok b) :
    ∃ t6 exePath baseDir, locateStage env t6 g = .ok (exePath, baseDir) ∧
      commitStage env t6 g exePath baseDir = .ok (installGame env t g).fs := by
  cases h0 : ensureDirs env t with
  | none => simp [installGame, h0] at h
  | some t0 =>
  cases h2 : mkdirSync
      (if gameDirExists env t0 g.id then rmSync t0 (gameDirOf env g.id) else t0)
      (gameDirOf env g.id) with
  | none => simp [installGame, h0, h2] at h
  | some t2 =>
  rcases h3 : downloadToFile env t2 g.download (tmpZipOf env g) with ⟨t3, ps, _ | e3⟩
  swap
  · simp [installGame, h0, h2, h3] at h
  rcases h4 : verifyStage env t3 g with ⟨t4, b4, _ | e4⟩
  swap
  · simp [installGame, h0, h2, h3, h4] at h
  rcases h5 : extractZipWithProgress env t4 (tmpZipOf env g) (gameDirOf env g.id) with
    ⟨t5, ps2, _ | e5⟩
  swap
  · simp [installGame, h0, h2, h3, h4, h5] at h
  rcases h6 : locateStage env (rmSync t5 (tmpZipOf env g)) g with e6 | ⟨exePath, baseDir⟩
  · simp [installGame, h0, h2, h3, h4, h5, h6] at h
  rcases h7 : commitStage env (rmSync t5 (tmpZipOf env g)) g exePath baseDir with e7 | t7
  · simp [installGame, h0, h2, h3, h4, h5, h6, h7] at h
  · refine ⟨rmSync t5 (tmpZipOf env g), exePath, baseDir, h6, ?_⟩
    simp [installGame, h0, h2, h3, h4, h5, h6, h7]

/-! ## C1: digest mismatch -/

theorem hasDigest_of (env : Env) (g : Game) (s : String) (hs : g.sha256 = some s)
    (hne : s ≠ "") (h : 0 < (env.trim s).length) : hasDigest env g = true := by
  simp [hasDigest, hs, h, hne]

/-- C1, as stated, fails: an expected digest of one space is non-empty and
differs from the digest `def456` of the download, yet `installGame` succeeds. -/
theorem install_blank_digest_counterexample :
    (sampleGame (some " ") "Game.exe").sha256 = some " " ∧ " " ≠ "" ∧
      (sampleEnv none).toLowerCase ((sampleEnv none).sha256Hex (.raw [1, 2, 3, 4])) ≠
        (sampleEnv none).toLowerCase " " ∧
      (installGame (sampleEnv (some [⟨["Game.exe"], false, [7]⟩])) .nil
        (sampleGame (some " ") "Game.exe")).result = .ok true := by
  decide

/-- C1, amended: for a package with a plain id, when the download completes,
the expected digest is not blank (it is non-empty and something is left after
`trim()`) and it differs, under `toLowerCase()`, from the SHA-256 hex digest of
the downloaded file, `installGame` fails with the digest-mismatch error and the
temporary archive `META_DIR/<id>.zip` no longer exists when it fails (no
file-system call throwing). -/
theorem install_digest_mismatch (env : Env) (t : Tree) (g : Game) (s : String)
    (total seen : Nat) (chunks : List (List Nat))
    (_hid : plainName g.id = true)
    (hreq : env.request g.download = .stream total chunks true seen)
    (hs : g.sha256 = some s) (hne : s ≠ "") (hblank : 0 < (env.trim s).length)
    (hdiff : env.toLowerCase (env.sha256Hex (.raw chunks.flatten)) ≠ env.toLowerCase s)
    (hfs : (installGame env t g).result ≠ .error .fs) :
    (installGame env t g).result = .error (.error mismatchMessage) ∧
      existsSync (installGame env t g).fs (tmpZipOf env g) = false := by
  have hdig := hasDigest_of env g s hs hne hblank
  cases h0 : ensureDirs env t with
  | none => simp [installGame, h0] at hfs
  | some t0 =>
  have hx := gameDirExists_plain env t0 g.id _hid
  cases h2 : mkdirSync
      (if existsSync t0 (gameDirOf env g.id) then rmSync t0 (gameDirOf env g.id) else t0)
      (gameDirOf env g.id) with
  | none => simp [installGame, h0, hx, h2] at hfs
  | some t2 =>
  cases hw : writeFileSync t2 (tmpZipOf env g) (.raw chunks.flatten) with
  | none =>
    have h3 : downloadToFile env t2 g.download (tmpZipOf env g) =
        (t2, downloadProgress total 0 (chunks.take seen), some .fs) := by
      simp [downloadToFile, hreq, hw]
    simp [installGame, h0, hx, h2, h3] at hfs
  | some t3 =>
    have h3 : downloadToFile env t2 g.download (tmpZipOf env g) =
        (t3, downloadProgress total 0 chunks, none) := by
      simp [downloadToFile, hreq, hw]
    have hstat := stat_writeFileSync_self _ _ _ _ hw
    have h4 : verifyStage env t3 g =
        (rmSync t3 (tmpZipOf env g), true, some (.error mismatchMessage)) := by
      simp [verifyStage, hdig, sha256File, hstat, hs, hdiff]
    have hnil : tmpZipOf env g ≠ [] := by
      intro hnil; rw [hnil] at hw; simp [writeFileSync] at hw
    have hrm : stat (rmSync t3 (tmpZipOf env g)) (tmpZipOf env g) = none :=
      stat_rmSync_self _ _ hnil
    simp only [installGame, h0, hx, h2, h3, h4]
    exact ⟨trivial, by simp [existsSync, hrm]⟩

/-- Witness: the package `g1` of the spec, expected digest `abc123`, served
digest `def456`. -/
theorem install_digest_mismatch_witness :
    (installGame (sampleEnv none) .nil (sampleGame (some "abc123") "Game.exe")).result =
        .error (.error mismatchMessage) ∧
      existsSync (installGame (sampleEnv none) .nil (sampleGame (some "abc123") "Game.exe")).fs
        (tmpZipOf (sampleEnv none) (sampleGame (some "abc123") "Game.exe")) = false :=
  install_digest_mismatch (sampleEnv none) .nil (sampleGame (some "abc123") "Game.exe")
    "abc123" 4 0 [[1, 2], [3, 4]] (by decide) rfl rfl (by decide) (by decide) (by decide)
    (by decide)

/-! ## C2: the verify stage -/

/-- C2, as stated, fails: the expected digest, a tab and a space, is neither
empty nor absent and differs from the digest `def456` of the file, yet the
verify stage passes, without computing a digest. -/
theorem verify_blank_digest_counterexample :
    (sampleGame (some "\t ") "Game.exe").sha256 = some "\t " ∧ "\t " ≠ "" ∧
      (sampleEnv none).toLowerCase "\t " ≠
        (sampleEnv none).toLowerCase ((sampleEnv none).sha256Hex (.raw [1, 2, 3, 4])) ∧
      verifyStage (sampleEnv none) sampleDownloaded (sampleGame (some "\t ") "Game.exe") =
        (sampleDownloaded, false, none) := by
  decide

/-- C2, amended: for every package and every downloaded file, the verify stage
of `installGame` passes without computing a digest when the expected digest is
absent, empty or empty after `trim()`, and otherwise it computes the digest and
passes exactly when the expected digest and the SHA-256 hex digest of the file
are equal under `toLowerCase()`. -/
theorem verifyStage_spec (env : Env) (t : Tree) (g : Game) (d : Data)
    (hfile : stat t (tmpZipOf env g) = some (.file d)) :
    ((g.sha256 = none ∨ g.sha256 = some "" ∨
        ∃ s, g.sha256 = some s ∧ (env.trim s).length = 0) →
        verifyStage env t g = (t, false, none)) ∧
      (∀ s, g.sha256 = some s → s ≠ "" → 0 < (env.trim s).length →
        (verifyStage env t g).2.1 = true ∧
        ((verifyStage env t g).2.2 = none ↔
          env.toLowerCase s = env.toLowerCase (env.sha256Hex d))) := by
  constructor
  · rintro (h | h | ⟨s, hs, h0⟩)
    · simp [verifyStage, hasDigest, h]
    · simp [verifyStage, hasDigest, h]
    · simp [verifyStage, hasDigest, hs, h0]
  · intro s hs hne hpos
    have hdig := hasDigest_of env g s hs hne hpos
    by_cases heq : env.toLowerCase (env.sha256Hex d) = env.toLowerCase s
    · simp [verifyStage, hdig, sha256File, hfile, hs, heq]
    · have heq2 : ¬ env.toLowerCase s = env.toLowerCase (env.sha256Hex d) :=
        fun h => heq h.symm
      simp [verifyStage, hdig, sha256File, hfile, hs, heq, heq2]

/-- Witness: expected `DEF456` against the digest `def456`. -/
theorem verifyStage_spec_witness :
    (((sampleGame (some "DEF456") "Game.exe").sha256 = none ∨
        (sampleGame (some "DEF456") "Game.exe").sha256 = some "" ∨
        ∃ s, (sampleGame (some "DEF456") "Game.exe").sha256 = some s ∧
          ((sampleEnv none).trim s).length = 0) →
      verifyStage (sampleEnv none) sampleDownloaded (sampleGame (some "DEF456") "Game.exe") =
        (sampleDownloaded, false, none)) ∧
    (∀ s, (sampleGame (some "DEF456") "Game.exe").sha256 = some s → s ≠ "" →
      0 < ((sampleEnv none).trim s).length →
      (verifyStage (sampleEnv none) sampleDownloaded
        (sampleGame (some "DEF456") "Game.exe")).2.1 = true ∧
      ((verifyStage (sampleEnv none) sampleDownloaded
        (sampleGame (some "DEF456") "Game.exe")).2.2 = none ↔
        (sampleEnv none).toLowerCase s =
          (sampleEnv none).toLowerCase ((sampleEnv none).sha256Hex (.raw [1, 2, 3, 4])))) :=
  verifyStage_spec (sampleEnv none) sampleDownloaded (sampleGame (some "DEF456") "Game.exe")
    (.raw [1, 2, 3, 4]) (by decide)

/-! ## C3: a failed install and the store -/

theorem getGames_result (env : Env) (games : List Game) (t : Tree) (l : List (Game × Bool))
    (h : (getGames env games t).result = .ok l) :
    installedFlags games (parseInstalled env t) = .ok l := by
  cases h0 : ensureDirs env t with
  | none => simp [getGames, readInstalled, h0] at h
  | some t0 =>
    rw [getGames, readInstalled_eq env t t0 h0] at h
    exact h

/-- C3, as stated, fails: the package id is `..`, so `path.join(INSTALL_ROOT, id)`
is the launcher's own directory.  `installGame` removes it, with
`Meta/installed.json` in it, and then fails in the download; `g0`, installed
before the call, is no longer listed as installed. -/
theorem install_failure_loses_store_counterexample :
    (installGame (sampleEnv none) sampleStore ⟨"..", "https://x/g.zip", none, "Game.exe"⟩).result =
        .error .fs ∧
      (getGames (sampleEnv none) [sampleGame none "Game.exe", ⟨"g0", "", none, "Game.exe"⟩]
        sampleStore).result =
        .ok [(sampleGame none "Game.exe", false), (⟨"g0", "", none, "Game.exe"⟩, true)] ∧
      (getGames (sampleEnv none) [sampleGame none "Game.exe", ⟨"g0", "", none, "Game.exe"⟩]
        (installGame (sampleEnv none) sampleStore
          ⟨"..", "https://x/g.zip", none, "Game.exe"⟩).fs).result =
        .ok [(sampleGame none "Game.exe", false), (⟨"g0", "", none, "Game.exe"⟩, false)] := by
  decide

/-- C3, amended: for a package with a plain id (one path segment, so that the
install directory is the child `<id>` of `INSTALL_ROOT`), when `installGame`
fails, at whatever stage, the value read from the installed-games file is the
one from before the call, so the `get-games` listing computed afterwards carries
the `installed` flags of that store; a package for which `installed[id]` was
`undefined` before is not listed as installed. -/
theorem install_failure_keeps_store (env : Env) (t : Tree) (g : Game) (e : Err)
    (hroot : isNormal env.appData = true) (hid : plainName g.id = true)
    (h : (installGame env t g).result = .error e) :
    parseInstalled env (installGame env t g).fs = parseInstalled env t ∧
      (∀ games l, (getGames env games (installGame env t g).fs).result = .ok l →
        installedFlags games (parseInstalled env t) = .ok l) ∧
      (∀ games l x m, parseInstalled env t = some m → getKey m x.id = .undefined →
        (getGames env games (installGame env t g).fs).result = .ok l → (x, true) ∉ l) := by
  have hp := install_failure_parse env t g e hroot hid h
  have h2 : ∀ games l, (getGames env games (installGame env t g).fs).result = .ok l →
      installedFlags games (parseInstalled env t) = .ok l := by
    intro games l hl
    have := getGames_result env games _ l hl
    rwa [hp] at this
  refine ⟨hp, h2, ?_⟩
  intro games l x m hm hx hl hmem
  have hflags := h2 games l hl
  rw [hm] at hflags
  simp only [installedFlags, Except.ok.injEq] at hflags
  rw [← hflags] at hmem
  simp only [List.mem_map, Prod.mk.injEq] at hmem
  obtain ⟨y, _, hy, hflag⟩ := hmem
  subst hy
  simp [hx] at hflag

/-- Witness: the digest-mismatch scenario of the spec. -/
theorem install_failure_keeps_store_witness :
    parseInstalled (sampleEnv none) (installGame (sampleEnv none) sampleStore
        (sampleGame (some "abc123") "Game.exe")).fs = parseInstalled (sampleEnv none) sampleStore ∧
      (∀ games l, (getGames (sampleEnv none) games (installGame (sampleEnv none) sampleStore
          (sampleGame (some "abc123") "Game.exe")).fs).result = .ok l →
        installedFlags games (parseInstalled (sampleEnv none) sampleStore) = .ok l) ∧
      (∀ games l x m, parseInstalled (sampleEnv none) sampleStore = some m →
        getKey m x.id = .undefined →
        (getGames (sampleEnv none) games (installGame (sampleEnv none) sampleStore
          (sampleGame (some "abc123") "Game.exe")).fs).result = .ok l → (x, true) ∉ l) :=
  install_failure_keeps_store (sampleEnv none) sampleStore (sampleGame (some "abc123") "Game.exe")
    (.error mismatchMessage) (by decide) (by decide) (by decide)

/-! ## C4: the temporary archive after a failed extraction -/

/-- C4 fails on the code: the download is not a zip archive, `installGame`
rejects with the archive error, and `META_DIR/g1.zip` is still there. -/
theorem install_bad_archive_keeps_tmpZip :
    (installGame (sampleEnv none) .nil (sampleGame none "Game.exe")).result = .error .zip ∧
      existsSync (installGame (sampleEnv none) .nil (sampleGame none "Game.exe")).fs
        (tmpZipOf (sampleEnv none) (sampleGame none "Game.exe")) = true := by
  decide

/-! ## C5: uninstall -/

theorem existsSync_congr (t u : Tree) (p : Path) (h : look t p = look u p) :
    existsSync t p = existsSync u p := by
  rw [existsSync_eq_look, existsSync_eq_look, h]

theorem ready_rm_gameDir (env : Env) (t : Tree) (id : String)
    (hroot : isNormal env.appData = true) (hid : plainName id = true) (h : Ready env t) :
    Ready env (rmSync t (gameDirOf env id)) := by
  obtain ⟨h1, h2, h3⟩ := h
  refine ⟨?_, ?_, ?_⟩
  · rw [existsSync_congr _ t _ (look_rmSync _ _ _ ?_)]; exact h1
    rw [gameDirOf_plain env id hroot hid]
    intro s hs
    have := congrArg List.length hs
    simp [INSTALL_ROOT, safeUserData] at this
  · rw [existsSync_congr _ t _ (look_rmSync _ _ _ ?_)]; exact h2
    rw [gameDirOf_plain env id hroot hid]
    intro s hs
    simp [META_DIR, INSTALL_ROOT, safeUserData] at hs
  · rw [existsSync_congr _ t _ (look_rm_gameDir env t id hroot hid)]; exact h3

theorem ready_clean (env : Env) (t : Tree) (id : String)
    (hroot : isNormal env.appData = true) (hid : plainName id = true) (h : Ready env t) :
    Ready env (if existsSync t (gameDirOf env id) then rmSync t (gameDirOf env id) else t) := by
  split
  · exact ready_rm_gameDir env t id hroot hid h
  · exact h

theorem gameDirOf_ne_nil (env : Env) (id : String)
    (hroot : isNormal env.appData = true) (hid : plainName id = true) :
    gameDirOf env id ≠ [] := by
  rw [gameDirOf_plain env id hroot hid]; simp

theorem exists_clean (env : Env) (t : Tree) (id : String)
    (hroot : isNormal env.appData = true) (hid : plainName id = true) :
    existsSync (if existsSync t (gameDirOf env id) then rmSync t (gameDirOf env id) else t)
      (gameDirOf env id) = false := by
  split
  · simp [existsSync, stat_rmSync_self t (gameDirOf env id) (gameDirOf_ne_nil env id hroot hid)]
  · next h => simpa using h

theorem ready_write_installed (env : Env) (t t1 : Tree) (d : Data) (h : Ready env t)
    (hw : writeFileSync t (INSTALLED_FILE env) d = some t1) : Ready env t1 := by
  obtain ⟨h1, h2, _⟩ := h
  refine ⟨?_, ?_, ?_⟩
  · rw [existsSync_congr _ t _ (look_writeFileSync _ _ _ _ _ hw ?_)]; exact h1
    simp [INSTALLED_FILE, META_DIR, INSTALL_ROOT, safeUserData]
  · rw [existsSync_congr _ t _ (look_writeFileSync _ _ _ _ _ hw ?_)]; exact h2
    simp [INSTALLED_FILE, META_DIR, INSTALL_ROOT, safeUserData]
  · simp [existsSync, stat_writeFileSync_self _ _ _ _ hw]

/-- What `uninstallGame` does once the launcher's directories are there and
the installed-games file holds an object. -/
theorem uninstallGame_ready (env : Env) (t t3 : Tree) (id : String) (m : Installed)
    (hroot : isNormal env.appData = true) (hid : plainName id = true) (hr : Ready env t)
    (hm : parseInstalled env t = some m)
    (hrec : ∀ r, getKey m id = .record r → r.gameDir = gameDirOf env id)
    (hw : writeFileSync
      (if existsSync t (gameDirOf env id) then rmSync t (gameDirOf env id) else t)
      (INSTALLED_FILE env) (.json (deleteKey m id)) = some t3) :
    uninstallGame env t id = ⟨t3, [], .ok true⟩ := by
  have h0 := ensureDirs_of_ready env t hr
  have hgd : (match getKey m id with
      | .record r => r.gameDir
      | _ => gameDirOf env id) = gameDirOf env id := by
    cases hk : getKey m id with
    | undefined => rfl
    | inherited => rfl
    | record r => exact hrec r hk
  have hth : (match getKey m id with
      | .record r => existsSync t r.gameDir
      | _ => gameDirExists env t id) = existsSync t (gameDirOf env id) := by
    cases hk : getKey m id with
    | undefined => exact gameDirExists_plain env t id hid
    | inherited => exact gameDirExists_plain env t id hid
    | record r => simp only [hrec r hk]
  have h2 := ensureDirs_of_ready env _ (ready_clean env t id hroot hid hr)
  simp only [uninstallGame, h0, readInstalled_eq env t t h0, hm, hgd, hth, writeInstalled,
    Option.some_bind, h2, hw]

/-- C5, as stated, fails: the store holds a record for `g1` whose `gameDir` is
not `INSTALL_ROOT/g1`, and `INSTALL_ROOT/g1` exists.  Both calls succeed, but
the second call removes `INSTALL_ROOT/g1`, which the first call had left. -/
theorem uninstall_twice_counterexample :
    (uninstallGame (sampleEnv none) sampleForeign "g1").result = .ok true ∧
      (uninstallGame (sampleEnv none)
        (uninstallGame (sampleEnv none) sampleForeign "g1").fs "g1").result = .ok true ∧
      existsSync (uninstallGame (sampleEnv none) sampleForeign "g1").fs
        (gameDirOf (sampleEnv none) "g1") = true ∧
      existsSync (uninstallGame (sampleEnv none)
        (uninstallGame (sampleEnv none) sampleForeign "g1").fs "g1").fs
        (gameDirOf (sampleEnv none) "g1") = false := by
  decide

/-- C5, amended: for a plain package id, when the launcher's directories and
installed-games file can be created and written, the file holds an object (or
is missing or unparsable), and the record of the id, if there is one, names
`INSTALL_ROOT/<id>` as its `gameDir` (as every record written by `installGame`
does), `uninstallGame` succeeds, also when the id has no record and when its
directory is absent, and leaves no record for the id; a second call succeeds
again and leaves the file system, the store included, exactly as the first
call left it. -/
theorem uninstall_idempotent (env : Env) (t t0 : Tree) (id : String) (m : Installed)
    (hroot : isNormal env.appData = true) (hid : plainName id = true)
    (h0 : ensureDirs env t = some t0)
    (hfile : ∀ c, stat t (INSTALLED_FILE env) ≠ some (.dir c))
    (hm : parseInstalled env t = some m)
    (hrec : ∀ r, getKey m id = .record r → r.gameDir = gameDirOf env id) :
    (uninstallGame env t id).result = .ok true ∧
      parseInstalled env (uninstallGame env t id).fs = some (deleteKey m id) ∧
      (deleteKey m id).lookup id = none ∧
      uninstallGame env (uninstallGame env t id).fs id = uninstallGame env t id := by
  have hr0 := ensureDirs_ready env t t0 h0
  have hp0 := parseInstalled_ensureDirs env t t0 h0
  have hm0 : parseInstalled env t0 = some m := by rw [hp0]; exact hm
  have hr2 := ready_clean env t0 id hroot hid hr0
  -- the installed-games file of the cleaned tree is not a directory
  obtain ⟨e, he⟩ := Option.isSome_iff_exists.1 hr2.2.2
  have hnd : ∀ c, e ≠ .dir c := by
    rintro c rfl
    have hl2 : look
        (if existsSync t0 (gameDirOf env id) then rmSync t0 (gameDirOf env id) else t0)
        (INSTALLED_FILE env) = some (.dir .nil) := by
      simp [look, he, Entry.shape]
    rw [look_clean env t0 id hroot hid] at hl2
    rcases ensureDirs_installed env t t0 h0 with h1 | ⟨_, h1⟩
    · rw [h1] at hl2
      simp only [look, Option.map_eq_some'] at hl2
      obtain ⟨e1, he1, hs1⟩ := hl2
      cases e1 with
      | file d => simp [Entry.shape] at hs1
      | special => simp [Entry.shape] at hs1
      | dir c1 => exact hfile c1 he1
    · simp [look, h1, Entry.shape] at hl2
  obtain ⟨t3, hw⟩ := writeFileSync_of_stat _ _ e (.json (deleteKey m id)) he hnd
  have hfirst0 := uninstallGame_ready env t0 t3 id m hroot hid hr0 hm0 hrec hw
  have hfirst : uninstallGame env t id = ⟨t3, [], .ok true⟩ := by
    rw [← hfirst0]
    have e0 := ensureDirs_of_ready env t0 hr0
    simp only [uninstallGame, h0, e0]
  have hstat3 := stat_writeFileSync_self _ _ _ _ hw
  have hp3 : parseInstalled env t3 = some (deleteKey m id) :=
    parseInstalled_of_stat env _ _ hstat3
  have hr3 := ready_write_installed env _ t3 _ hr2 hw
  have hex3 : existsSync t3 (gameDirOf env id) = false := by
    rw [existsSync_congr t3 _ _ (look_writeFileSync _ _ _ _ _ hw ?_)]
    · exact exists_clean env t0 id hroot hid
    · rw [gameDirOf_plain env id hroot hid]
      simp [INSTALLED_FILE, META_DIR, INSTALL_ROOT, safeUserData]
  have hsecond : uninstallGame env t3 id = ⟨t3, [], .ok true⟩ := by
    apply uninstallGame_ready env t3 t3 id (deleteKey m id) hroot hid hr3 hp3
    · intro r hk
      simp [getKey, lookup_deleteKey] at hk
      split at hk <;> simp at hk
    · simp only [hex3, Bool.false_eq_true, if_false]
      rw [deleteKey_deleteKey]
      exact writeFileSync_same _ _ _ hstat3
  rw [hfirst]
  exact ⟨rfl, hp3, lookup_deleteKey _ _, hsecond⟩

/-- Witness: an empty file system and an id without a record. -/
theorem uninstall_idempotent_witness :
    (uninstallGame (sampleEnv none) .nil "g1").result = .ok true ∧
      parseInstalled (sampleEnv none) (uninstallGame (sampleEnv none) .nil "g1").fs =
        some (deleteKey [] "g1") ∧
      (deleteKey ([] : Installed) "g1").lookup "g1" = none ∧
      uninstallGame (sampleEnv none) (uninstallGame (sampleEnv none) .nil "g1").fs "g1" =
        uninstallGame (sampleEnv none) .nil "g1" :=
  uninstall_idempotent (sampleEnv none) .nil
    (.dir "AppData"
      (.dir "VyltrexLauncher"
        (.dir "Games" .nil (.dir "Meta" (.file "installed.json" (.json []) .nil) .nil)) .nil)
      .nil)
    "g1" [] (by decide) (by decide) (by decide)
    (by intro c h; simp [INSTALLED_FILE, META_DIR, safeUserData, sampleEnv, stat,
      Tree.find] at h)
    (by decide)
    (by intro r h; simp [getKey, protoKeys] at h)

/-! ## C6: install, then launch -/

/-- C6 fails on the code: `game.exe` is `bin/Game.exe` and the archive holds
`bin/Game.exe`.  `installGame` succeeds and `get-games` lists `g1` as
installed, with `baseDir = INSTALL_ROOT/g1` and `exe = "Game.exe"` in the
record; `launchGame` then looks for `INSTALL_ROOT/g1/Game.exe` and fails. -/
theorem install_nested_exe_launch_fails :
    (installGame (sampleEnv (some [⟨["bin", "Game.exe"], false, [7]⟩])) .nil
        (sampleGame none "bin/Game.exe")).result = .ok true ∧
      (getGames (sampleEnv none) [sampleGame none "bin/Game.exe"]
        (installGame (sampleEnv (some [⟨["bin", "Game.exe"], false, [7]⟩])) .nil
          (sampleGame none "bin/Game.exe")).fs).result =
        .ok [(sampleGame none "bin/Game.exe", true)] ∧
      (launchGame (sampleEnv none)
        (installGame (sampleEnv (some [⟨["bin", "Game.exe"], false, [7]⟩])) .nil
          (sampleGame none "bin/Game.exe")).fs "g1" "bin/Game.exe").result =
        .error (.error
          "EXE not found: Game.exe. (Installed base: /AppData/VyltrexLauncher/Games/g1)") := by
  decide

/-! ## C8: the committed record -/

/-- C8 fails on the code: `game.exe` is `Game.exe` and the archive holds the
file `Game.exe/readme.txt`.  `installGame` succeeds and commits
`baseDir = INSTALL_ROOT/g1`, `exe = "Game.exe"`, but `INSTALL_ROOT/g1/Game.exe`
is a directory, not a regular file. -/
theorem install_commits_directory :
    (installGame (sampleEnv (some [⟨["Game.exe", "readme.txt"], false, [7]⟩])) .nil
        (sampleGame none "Game.exe")).result = .ok true ∧
      (parseInstalled (sampleEnv none)
        (installGame (sampleEnv (some [⟨["Game.exe", "readme.txt"], false, [7]⟩])) .nil
          (sampleGame none "Game.exe")).fs).map (fun obj => getKey obj "g1") =
        some (.record ⟨gameDirOf (sampleEnv none) "g1", gameDirOf (sampleEnv none) "g1",
          "Game.exe", "2024-01-01T00:00:00.000Z"⟩) ∧
      stat (installGame (sampleEnv (some [⟨["Game.exe", "readme.txt"], false, [7]⟩])) .nil
          (sampleGame none "Game.exe")).fs
          (pathJoin false (gameDirOf (sampleEnv none) "g1") "Game.exe") =
        some (.dir (.file "readme.txt" (.raw [7]) .nil)) := by
  decide

/-! ## C10: launch -/

/-- C10, as stated, fails: `installed.json` holds the text `null`, so the store
has no record for `g1`, yet `launchGame` does not fail with the not-installed
error: `installed[gameId]` throws a `TypeError`. -/
theorem launch_null_store_counterexample :
    parseInstalled (sampleEnv none) sampleNull = none ∧
      (launchGame (sampleEnv none) sampleNull "g1" "Game.exe").result = .error .typeError ∧
      (launchGame (sampleEnv none) sampleNull "g1" "Game.exe").result ≠
        .error (.error notInstalledMessage) := by
  decide

/-- C10, amended: with the launcher's directories in place (`t0` is the tree
after `ensureDirs`) and an installed-games file that holds an object (or is
missing or unparsable), `launchGame` fails with the not-installed error when
the object has no record for the id; when it has a record, the executable is
`path.join(record.baseDir, record.exe)` whatever name the caller supplied (the
supplied name is used only when the stored `exe` is empty), the call fails with
the not-found error when that path does not exist (a path that ends with a
separator exists only as a directory), and otherwise it starts that path with
`cwd = record.baseDir`. -/
theorem launchGame_spec (env : Env) (t t0 : Tree) (gameId exeNameFromUI : String)
    (obj : Installed) (h0 : ensureDirs env t = some t0)
    (hobj : parseInstalled env t = some obj) :
    ((∀ r, getKey obj gameId ≠ .record r) →
        (launchGame env t gameId exeNameFromUI).result =
          .error (.error notInstalledMessage)) ∧
      (∀ r, getKey obj gameId = .record r → r.exe ≠ "" →
        (existsJoined t0 env.win32 r.baseDir r.exe = false →
          (launchGame env t gameId exeNameFromUI).result =
            .error (.error (launchNotFoundMessage env r.exe r.baseDir))) ∧
        (existsJoined t0 env.win32 r.baseDir r.exe = true →
          (launchGame env t gameId exeNameFromUI).result =
            .ok ⟨pathJoin env.win32 r.baseDir r.exe, r.baseDir⟩)) ∧
      (∀ r, getKey obj gameId = .record r → r.exe = "" →
        (existsJoined t0 env.win32 r.baseDir exeNameFromUI = false →
          (launchGame env t gameId exeNameFromUI).result =
            .error (.error (launchNotFoundMessage env exeNameFromUI r.baseDir))) ∧
        (existsJoined t0 env.win32 r.baseDir exeNameFromUI = true →
          (launchGame env t gameId exeNameFromUI).result =
            .ok ⟨pathJoin env.win32 r.baseDir exeNameFromUI, r.baseDir⟩)) := by
  have hr0 := ensureDirs_ready env t t0 h0
  have e0 := ensureDirs_of_ready env t0 hr0
  have hp0 := parseInstalled_ensureDirs env t t0 h0
  refine ⟨?_, ?_, ?_⟩
  · intro hk
    cases hg : getKey obj gameId with
    | undefined => simp [launchGame, h0, readInstalled_eq env t0 t0 e0, hp0, hobj, hg]
    | inherited => simp [launchGame, h0, readInstalled_eq env t0 t0 e0, hp0, hobj, hg]
    | record r => exact absurd hg (hk r)
  · intro r hk hexe
    constructor
    · intro hx
      simp [launchGame, h0, readInstalled_eq env t0 t0 e0, hp0, hobj, hk, hexe, hx]
    · intro hx
      simp [launchGame, h0, readInstalled_eq env t0 t0 e0, hp0, hobj, hk, hexe, hx]
  · intro r hk hexe
    constructor
    · intro hx
      simp [launchGame, h0, readInstalled_eq env t0 t0 e0, hp0, hobj, hk, hexe, hx]
    · intro hx
      simp [launchGame, h0, readInstalled_eq env t0 t0 e0, hp0, hobj, hk, hexe, hx]

/-- Witness: the record wins over the name `Other.exe`. -/
theorem launchGame_spec_witness :
    (launchGame (sampleEnv none) sampleInstalled "g1" "Other.exe").result =
      .ok ⟨["AppData", "VyltrexLauncher", "Games", "g1", "wrapper", "Game.exe"],
        ["AppData", "VyltrexLauncher", "Games", "g1", "wrapper"]⟩ :=
  ((launchGame_spec (sampleEnv none) sampleInstalled sampleInstalled "g1" "Other.exe"
    [("g1", ⟨["AppData", "VyltrexLauncher", "Games", "g1"],
      ["AppData", "VyltrexLauncher", "Games", "g1", "wrapper"], "Game.exe", "then"⟩)]
    (by decide) (by decide)).2.1
    ⟨["AppData", "VyltrexLauncher", "Games", "g1"],
      ["AppData", "VyltrexLauncher", "Games", "g1", "wrapper"], "Game.exe", "then"⟩
    (by decide) (by decide)).2 (by decide)

/-! ## C7: `findExeRecursive` -/

theorem dirname_append_basename (p : Path) (hp : p ≠ []) : dirname p ++ [basename p] = p := by
  simp only [dirname, basename, List.getLastD_eq_getLast?, List.getLast?_eq_getLast _ hp,
    Option.getD_some]
  exact List.dropLast_append_getLast hp

/-- C7: on every tree in which no directory lists a name twice,
`findExeRecursive` terminates (any fuel from `visitCostAt` on gives its
result), it returns a path if and only if some regular file at any depth below
`dir` has a name equal to `exeName` under `toLowerCase()`, a returned path is
such a file below `dir`, and when the direct path `path.join(gameDir, exe)`
does not exist the locate step of `installGame` takes the containing directory
of the returned path as `baseDir`, which the commit then records (for an id
other than `__proto__`). -/
theorem findExeRecursive_spec (env : Env) (t : Tree) (dir : Path) (exeName : String)
    (hwf : wellFormed t = true) :
    (∀ fuel, visitCostAt t dir ≤ fuel →
        findLoop env.toLowerCase t exeName fuel [dir] =
          some (findExeRecursive env.toLowerCase t dir exeName)) ∧
      ((findExeRecursive env.toLowerCase t dir exeName).isSome = true ↔
        HasExe env.toLowerCase t dir exeName) ∧
      (∀ p, findExeRecursive env.toLowerCase t dir exeName = some p →
        IsExeAt env.toLowerCase t dir exeName p) ∧
      (∀ (g : Game) (p : Path), dir = gameDirOf env g.id → exeName = g.exe →
        existsJoined t env.win32 (gameDirOf env g.id) g.exe = false →
        findExeRecursive env.toLowerCase t dir exeName = some p →
        locateStage env t g = .ok (p, dirname p) ∧ dirname p ++ [basename p] = p ∧
        ∀ (t1 : Tree), g.id ≠ "__proto__" → commitStage env t g p (dirname p) = .ok t1 →
          ∃ obj, parseInstalled env t1 = some obj ∧
            getKey obj g.id =
              .record ⟨gameDirOf env g.id, dirname p, basename p, env.now⟩) := by
  have hrun := findLoop_eq_findExeRecursive env.toLowerCase t dir exeName (visitCostAt t dir)
    (le_refl _)
  have hsound : ∀ p, findExeRecursive env.toLowerCase t dir exeName = some p →
      IsExeAt env.toLowerCase t dir exeName p := by
    intro p hp
    rw [hp] at hrun
    apply findLoop_sound env.toLowerCase t exeName dir hwf _ [dir] p _ hrun
    intro q hq
    exact ⟨[], by simpa using hq⟩
  refine ⟨fun fuel h => findLoop_eq_findExeRecursive env.toLowerCase t dir exeName fuel h, ?_,
    hsound, ?_⟩
  · constructor
    · intro h
      obtain ⟨p, hp⟩ := Option.isSome_iff_exists.1 h
      obtain ⟨rel, d, hrel, rfl, hstat, hname⟩ := hsound p hp
      exact ⟨rel, d, hrel, hstat, hname⟩
    · intro h
      cases hres : findExeRecursive env.toLowerCase t dir exeName with
      | some p => rfl
      | none =>
        rw [hres] at hrun
        exact absurd h
          (findLoop_complete env.toLowerCase t exeName _ [dir] hrun dir
            (List.mem_singleton.2 rfl))
  · intro g p hdir hexe hmiss hp
    subst hdir hexe
    have hne : p ≠ [] := by
      obtain ⟨rel, d, hrel, rfl, _, _⟩ := hsound p hp
      simp [hrel]
    refine ⟨?_, dirname_append_basename p hne, ?_⟩
    · simp [locateStage, hmiss, hp]
    · intro t1 hid hc
      exact commitStage_record env t t1 g p (dirname p) hid hc

/-- Witness: `game.EXE` lies two folders below the install directory of `g1`
and is found under the name `Game.exe`. -/
theorem findExeRecursive_spec_witness :
    wellFormed sampleNested = true ∧
      findExeRecursive (sampleEnv none).toLowerCase sampleNested
        (gameDirOf (sampleEnv none) "g1") "Game.exe" =
        some (gameDirOf (sampleEnv none) "g1" ++ ["wrapper", "bin", "game.EXE"]) ∧
      IsExeAt (sampleEnv none).toLowerCase sampleNested (gameDirOf (sampleEnv none) "g1")
        "Game.exe" (gameDirOf (sampleEnv none) "g1" ++ ["wrapper", "bin", "game.EXE"]) ∧
      locateStage (sampleEnv none) sampleNested (sampleGame none "Game.exe") =
        .ok (gameDirOf (sampleEnv none) "g1" ++ ["wrapper", "bin", "game.EXE"],
          dirname (gameDirOf (sampleEnv none) "g1" ++ ["wrapper", "bin", "game.EXE"])) :=
  ⟨by decide, by decide,
    (findExeRecursive_spec (sampleEnv none) sampleNested (gameDirOf (sampleEnv none) "g1")
      "Game.exe" (by decide)).2.2.1 _ (by decide),
    ((findExeRecursive_spec (sampleEnv none) sampleNested (gameDirOf (sampleEnv none) "g1")
      "Game.exe" (by decide)).2.2.2
      (sampleGame none "Game.exe") _ rfl rfl (by decide) (by decide)).1⟩

/-! ## C9: an archive without entries -/

theorem Tree.eq_nil_of_find (c : Tree) (h : ∀ x, c.find x = none) : c = .nil := by
  cases c with
  | nil => rfl
  | file n d r => have := h n; simp [Tree.find] at this
  | special n r => have := h n; simp [Tree.find] at this
  | dir n c1 r => have := h n; simp [Tree.find] at this

theorem stat_of_emptyDir (t : Tree) (p : Path) (h : EmptyDir t p) : stat t p = some (.dir .nil) := by
  obtain ⟨h1, h2⟩ := h
  simp only [look, Option.map_eq_some'] at h1
  obtain ⟨e, he, hs⟩ := h1
  cases e with
  | file d => simp [Entry.shape] at hs
  | special => simp [Entry.shape] at hs
  | dir c =>
    have hc : c = .nil := by
      apply Tree.eq_nil_of_find
      intro x
      have := h2 x
      simp only [look, stat_append t c p _ he, stat_singleton, Option.map_eq_none'] at this
      exact this
    rw [he, hc]

/-- On an empty install directory the locate step fails, naming no folder,
when `path.join(gameDir, game.exe)` lies below the install directory. -/
theorem locateStage_emptyDir (env : Env) (t : Tree) (g : Game)
    (h : EmptyDir t (gameDirOf env g.id))
    (hexe : ∃ rel, rel ≠ [] ∧
      pathJoin env.win32 (gameDirOf env g.id) g.exe = gameDirOf env g.id ++ rel) :
    locateStage env t g = .error (.error (exeNotFoundMessage g.exe [])) := by
  have hs := stat_of_emptyDir t _ h
  obtain ⟨rel, hrel, hjoin⟩ := hexe
  have hmiss : existsSync t (pathJoin env.win32 (gameDirOf env g.id) g.exe) = false := by
    rw [hjoin]
    cases rel with
    | nil => exact absurd rfl hrel
    | cons x rest => simp [existsSync, stat_append t .nil _ _ hs, stat_cons, Tree.find]
  have hfind : findExeRecursive env.toLowerCase t (gameDirOf env g.id) g.exe = none := by
    have hrd : readdirSync t (gameDirOf env g.id) = some [] := by
      simp [readdirSync, hs, dirents]
    simp [findExeRecursive, visitCostAt, hs, visitCost, dirCost, findLoop, hrd, scanEntries]
  have htops : listTopLevelFolders t (gameDirOf env g.id) = [] := by
    simp [listTopLevelFolders, readdirSync, hs, dirents]
  have hmiss2 : existsJoined t env.win32 (gameDirOf env g.id) g.exe = false :=
    existsJoined_of_stat_none t _ _ _ (by simpa [existsSync] using hmiss)
  simp [locateStage, hmiss2, hfind, htops]

theorem emptyDir_congr (t u : Tree) (p : Path) (h1 : look u p = look t p)
    (h2 : ∀ x, look u (p ++ [x]) = look t (p ++ [x])) (h : EmptyDir t p) : EmptyDir u p :=
  ⟨h1.trans h.1, fun x => (h2 x).trans (h.2 x)⟩

theorem emptyDir_mkdirSync (t t1 : Tree) (p : Path) (hmk : mkdirSync t p = some t1)
    (hmiss : existsSync t p = false) : EmptyDir t1 p := by
  refine ⟨look_mkdirSync_self t t1 p hmk, ?_⟩
  intro x
  rw [look_mkdirSync t t1 p _ hmk]
  · cases hl : look t (p ++ [x]) with
    | none => rfl
    | some e =>
      have : existsSync t (p ++ [x]) = true := by simp [existsSync_eq_look, hl]
      rw [existsSync_of_append t p [x] this] at hmiss
      exact absurd hmiss (by simp)
  · intro s hs
    have := congrArg List.length hs
    simp at this

theorem gameDir_ne_tmpZip (env : Env) (g : Game) (r s : Path)
    (hroot : isNormal env.appData = true) (hid : plainName g.id = true) :
    gameDirOf env g.id ++ r ≠ tmpZipOf env g ++ s := by
  rw [gameDirOf_plain env g.id hroot hid, tmpZipOf_plain env g hroot hid]
  simp [INSTALL_ROOT, META_DIR, safeUserData]

/-- The verify stage lets the file through. -/
theorem verifyStage_pass (env : Env) (t : Tree) (g : Game) (d : Data)
    (hfile : stat t (tmpZipOf env g) = some (.file d))
    (h : hasDigest env g = false ∨
      env.toLowerCase (env.sha256Hex d) = env.toLowerCase (g.sha256.getD "")) :
    verifyStage env t g = (t, hasDigest env g, none) := by
  cases hd : hasDigest env g with
  | false => simp [verifyStage, hd]
  | true =>
    rcases h with h | h
    · rw [hd] at h; simp at h
    · simp [verifyStage, hd, sha256File, hfile, h]

/-- Extraction of an archive without file entries: no error, no progress call. -/
theorem extract_no_entries (env : Env) (t : Tree) (zipPath outDir : Path) (d : Data)
    (hfile : stat t zipPath = some (.file d)) (hzip : env.zipEntries d = some []) :
    extractZipWithProgress env t zipPath outDir = (t, [], none) := by
  simp [extractZipWithProgress, hfile, hzip, extractLoop]

/-- C9, as stated, fails: on an archive with zero entries
`extractZipWithProgress` completes without error but calls its callback not at
all, so no `100` is reported; in `installGame` the only `Extracting` event is
the `0` sent before extraction starts. -/
theorem extract_empty_counterexample :
    extractZipWithProgress (sampleEnv (some [])) sampleDownloaded
        (tmpZipOf (sampleEnv none) (sampleGame none "Game.exe"))
        (gameDirOf (sampleEnv none) "g1") =
        (sampleDownloaded, [], none) ∧
      (installGame (sampleEnv (some [])) .nil (sampleGame none "Game.exe")).events.filter
        (fun ev => ev.2 = "Extracting") = [(zero, "Extracting")] ∧
      (hundred, "Extracting") ∉
        (installGame (sampleEnv (some [])) .nil (sampleGame none "Game.exe")).events := by
  decide

/-- C9, amended: for an archive with zero entries `extractZipWithProgress`
completes without error and makes no progress call; in `installGame` (plain
package id, download complete, verify stage passed, `path.join(gameDir,
game.exe)` a path below the install directory, no file-system call throwing)
the only `Extracting` event is the initial `0`, and the locate step fails with
the not-found error, whose message names no top-level folder and ends with
`ZIP may be empty or different.`. -/
theorem install_empty_archive (env : Env) (t : Tree) (g : Game) (total seen : Nat)
    (chunks : List (List Nat))
    (hroot : isNormal env.appData = true) (hid : plainName g.id = true)
    (hreq : env.request g.download = .stream total chunks true seen)
    (hzip : env.zipEntries (.raw chunks.flatten) = some [])
    (hver : hasDigest env g = false ∨
      env.toLowerCase (env.sha256Hex (.raw chunks.flatten)) =
        env.toLowerCase (g.sha256.getD ""))
    (hexe : ∃ rel, rel ≠ [] ∧
      pathJoin env.win32 (gameDirOf env g.id) g.exe = gameDirOf env g.id ++ rel)
    (hfs : (installGame env t g).result ≠ .error .fs) :
    (∀ (u : Tree) (zipPath outDir : Path), stat u zipPath = some (.file (.raw chunks.flatten)) →
        extractZipWithProgress env u zipPath outDir = (u, [], none)) ∧
      (installGame env t g).events =
        [(zero, "Downloading")] ++ stage "Downloading" (downloadProgress total 0 chunks) ++
          [(zero, "Verifying"), (zero, "Extracting")] ∧
      (installGame env t g).result =
        .error (.error ("EXE not found: " ++ g.exe ++ ". " ++
          "ZIP may be empty or different.")) := by
  refine ⟨fun u zipPath outDir hu => extract_no_entries env u zipPath outDir _ hu hzip, ?_⟩
  cases h0 : ensureDirs env t with
  | none => simp [installGame, h0] at hfs
  | some t0 =>
  have hx := gameDirExists_plain env t0 g.id hid
  cases h2 : mkdirSync
      (if existsSync t0 (gameDirOf env g.id) then rmSync t0 (gameDirOf env g.id) else t0)
      (gameDirOf env g.id) with
  | none => simp [installGame, h0, hx, h2] at hfs
  | some t2 =>
  have hE2 : EmptyDir t2 (gameDirOf env g.id) :=
    emptyDir_mkdirSync _ _ _ h2 (exists_clean env t0 g.id hroot hid)
  cases hw : writeFileSync t2 (tmpZipOf env g) (.raw chunks.flatten) with
  | none =>
    have h3 : downloadToFile env t2 g.download (tmpZipOf env g) =
        (t2, downloadProgress total 0 (chunks.take seen), some .fs) := by
      simp [downloadToFile, hreq, hw]
    simp [installGame, h0, hx, h2, h3] at hfs
  | some t3 =>
    have h3 : downloadToFile env t2 g.download (tmpZipOf env g) =
        (t3, downloadProgress total 0 chunks, none) := by
      simp [downloadToFile, hreq, hw]
    have hstat := stat_writeFileSync_self _ _ _ _ hw
    have hE3 : EmptyDir t3 (gameDirOf env g.id) := by
      apply emptyDir_congr t2 t3 _ _ _ hE2
      · exact look_writeFileSync _ _ _ _ _ hw
          (by simpa using gameDir_ne_tmpZip env g [] [] hroot hid)
      · intro x
        exact look_writeFileSync _ _ _ _ _ hw
          (by simpa using gameDir_ne_tmpZip env g [x] [] hroot hid)
    have h4 := verifyStage_pass env t3 g _ hstat hver
    have h5 := extract_no_entries env t3 (tmpZipOf env g) (gameDirOf env g.id) _ hstat hzip
    have hE6 : EmptyDir (rmSync t3 (tmpZipOf env g)) (gameDirOf env g.id) := by
      apply emptyDir_congr t3 _ _ _ _ hE3
      · exact look_rmSync _ _ _ (fun s => by simpa using gameDir_ne_tmpZip env g [] s hroot hid)
      · intro x
        exact look_rmSync _ _ _ (fun s => gameDir_ne_tmpZip env g [x] s hroot hid)
    have h6 := locateStage_emptyDir env _ g hE6 hexe
    simp only [installGame, h0, hx, h2, h3, h4, h5, h6]
    refine ⟨by simp [stage], ?_⟩
    simp [exeNotFoundMessage]

/-- Witness: the package `g1` with an empty archive. -/
theorem install_empty_archive_witness :
    (installGame (sampleEnv (some [])) .nil (sampleGame none "Game.exe")).result =
      .error (.error "EXE not found: Game.exe. ZIP may be empty or different.") :=
  (install_empty_archive (sampleEnv (some [])) .nil (sampleGame none "Game.exe") 4 0
    [[1, 2], [3, 4]] (by decide) (by decide) rfl rfl (by decide)
    ⟨["Game.exe"], by decide, by decide⟩ (by decide)).2.2

/-! ## What the locate step returns -/

/-- A path that `findLoop` returns exists below a stacked directory and has
the wanted name under `lower`. -/
theorem findLoop_exists (lower : String → String) (t : Tree) (exeName : String) (root : Path)
    (fuel : Nat) (stack : List Path) (p : Path)
    (hst : ∀ q ∈ stack, ∃ rel, q = root ++ rel)
    (h : findLoop lower t exeName fuel stack = some (some p)) :
    ∃ rel, rel ≠ [] ∧ p = root ++ rel ∧ existsSync t p = true ∧
      lower (basename p) = lower exeName := by
  induction fuel generalizing stack with
  | zero =>
    cases stack with
    | nil => simp [findLoop] at h
    | cons cur rest => simp [findLoop] at h
  | succ fuel ih =>
    cases stack with
    | nil => simp [findLoop] at h
    | cons cur rest =>
      rw [findLoop] at h
      split at h
      · exact ih rest (fun q hq => hst q (List.mem_cons_of_mem _ hq)) h
      · next es hes =>
        obtain ⟨c, hc, rfl⟩ := readdirSync_some t cur es hes
        obtain ⟨rel, hrel⟩ := hst cur (List.mem_cons_self _ _)
        split at h
        · next p1 hp1 =>
          simp only [Option.some.injEq] at h
          subst h
          obtain ⟨e, he, _, hname, rfl⟩ := scanEntries_inl lower _ _ _ _ _ hp1
          refine ⟨rel ++ [e.name], by simp, by simp [hrel], ?_, ?_⟩
          · rw [existsSync, stat_append t c cur _ hc, stat_singleton]
            exact find_isSome_of_dirent c e he
          · rw [basename_append_singleton]; exact hname
        · next st1 hst1 =>
          obtain ⟨h1, _⟩ := scanEntries_inr lower _ _ _ _ _ hst1
          apply ih st1 _ h
          intro q hq
          rw [h1] at hq
          rcases List.mem_append.1 hq with hq | hq
          · simp only [pushed, List.mem_reverse, List.mem_map, List.mem_filter] at hq
            obtain ⟨e, _, rfl⟩ := hq
            exact ⟨rel ++ [e.name], by simp [hrel]⟩
          · exact hst q (List.mem_cons_of_mem _ hq)

/-- What the locate step of `installGame` returns: the direct path, or a path
found below the install directory together with its containing directory.  In
both cases the path exists. -/
theorem locateStage_ok (env : Env) (t : Tree) (g : Game) (exePath baseDir : Path)
    (h : locateStage env t g = .ok (exePath, baseDir)) :
    existsSync t exePath = true ∧
      ((exePath = pathJoin env.win32 (gameDirOf env g.id) g.exe ∧
          baseDir = gameDirOf env g.id) ∨
        (∃ rel, rel ≠ [] ∧ exePath = gameDirOf env g.id ++ rel ∧ baseDir = dirname exePath ∧
          env.toLowerCase (basename exePath) = env.toLowerCase g.exe)) := by
  unfold locateStage at h
  simp only at h
  split at h
  · split at h
    · next found hfound =>
      simp only [Except.ok.injEq, Prod.mk.injEq] at h
      obtain ⟨rfl, rfl⟩ := h
      have hrun := findLoop_eq_findExeRecursive env.toLowerCase t (gameDirOf env g.id) g.exe _
        (le_refl _)
      rw [hfound] at hrun
      obtain ⟨rel, hrel, hp, hex, hname⟩ := findLoop_exists env.toLowerCase t _
        (gameDirOf env g.id) _ _ _ (fun q hq => ⟨[], by simpa using hq⟩) hrun
      exact ⟨hex, Or.inr ⟨rel, hrel, hp, rfl, hname⟩⟩
    · simp at h
  · next hx =>
    simp only [Except.ok.injEq, Prod.mk.injEq] at h
    obtain ⟨rfl, rfl⟩ := h
    exact ⟨existsJoined_true t _ _ _ (by simpa using hx), Or.inl ⟨rfl, rfl⟩⟩

/-- The base directory that the locate step returns is the install directory
or lies below it. -/
theorem locateStage_baseDir (env : Env) (t : Tree) (g : Game) (exePath baseDir : Path)
    (h : locateStage env t g = .ok (exePath, baseDir)) :
    ∃ rel, baseDir = gameDirOf env g.id ++ rel := by
  rcases (locateStage_ok env t g exePath baseDir h).2 with ⟨_, hb⟩ | ⟨rel, hrel, hp, hb, _⟩
  · exact ⟨[], by simp [hb]⟩
  · refine ⟨rel.dropLast, ?_⟩
    rw [hb, hp, dirname, List.dropLast_append_of_ne_nil _ hrel]

end Vyltrex
